import Mathlib

/-!
# MedSeg-Viewer: formal model of the segmentation codec and indexing core

This file gives a shallow embedding, in Lean 4, of the algorithmic core of the
MedSeg-Viewer repository (`src/utils.ts`, `src/App.tsx`,
`src/components/FileTree.tsx`) and proves properties of that embedding.

Modelling conventions:
* JavaScript strings are modelled as `List Nat` (their UTF-16 char codes) for
  the RLE wire format, and as `List Char` for file names.
* JavaScript 32-bit bitwise arithmetic is modelled on `Nat` values `< 2^32`
  holding the two's-complement bit pattern; `toSigned32` reads the pattern
  back as the signed value a JS number holds after a bitwise operation.
* In JS, `charCodeAt` at an out-of-range index returns NaN; every bitwise use
  of NaN converts it to 0, so the model treats the end-of-string read as an
  all-zero bit pattern.
* The `ImageData` pixel buffer is modelled as a function `Nat → Nat` from byte
  index to byte value, initially constant 0 (a fresh buffer is all zeroes).
-/

namespace MedSeg

/-! ## Varint decoder (`decodeCocoRleString`, src/utils.ts) -/

/-- Two's-complement 32-bit read-back: the signed JS number a bit pattern
denotes. -/
def toSigned32 (n : Nat) : Int :=
  if n < 2 ^ 31 then (n : Int) else (n : Int) - 2 ^ 32

/-- The 32-bit pattern of `charCodeAt(p) - 48` for an in-range character with
code `code`.  The code is a `Nat < 2^16`, and `code - 48` may be negative, so
the pattern is taken `emod 2^32`. -/
def unitBits (code : Nat) : Nat :=
  ((Int.ofNat code - 48).emod (2 ^ 32)).toNat

/-- Decoder state for `decodeCocoRleString`: `k` and `x` are the unit counter
and accumulator of the inner LEB128-like loop, `inUnit` records whether the
inner loop is mid-value (i.e. the last consumed unit had bit 0x20 set), and
`acc` is the `counts` array built so far. -/
structure VarState where
  k : Nat
  x : Nat
  inUnit : Bool
  acc : List Int
  deriving Repr

/-- Payload OR step `x |= (c & 0x1f) << (5*k)` with JS semantics: the shift
count is taken mod 32 and the result is a 32-bit pattern. -/
def orPayload (x payload k : Nat) : Nat :=
  x ||| (payload <<< (5 * k % 32)) % 2 ^ 32

/-- Sign-extension step `x |= -1 << (5*k)` with JS semantics: the pattern of
the int32 `-1 << s` for `s = 5*k % 32` is `2^32 - 2^s`. -/
def orSignExt (x k : Nat) : Nat :=
  x ||| (2 ^ 32 - 2 ^ (5 * k % 32))

/-- Finish one decoded value: read the final pattern as a signed number and
apply the delta rule `if (m > 2) x += counts[m-2]` before appending (`m` is
`acc.length`, the index the value is stored at). -/
def finishValue (acc : List Int) (x : Nat) : List Int :=
  let v := toSigned32 x
  let v := if acc.length > 2 then v + acc.getD (acc.length - 2) 0 else v
  acc ++ [v]

/-- Accumulator pattern of a value at its final unit: payload OR followed by
the conditional sign extension `if (!more && (c & 0x10)) x |= -1 << (5*k)`
(with `k` already incremented). -/
def unitFinX (x k cb : Nat) : Nat :=
  if cb / 16 % 2 = 1 then orSignExt (orPayload x (cb % 32) k) (k + 1)
  else orPayload x (cb % 32) k

/-- Process one 6-bit unit with bit pattern `cb` (the pattern of
`charCodeAt(p) - 48`).  Mirrors the body of the inner `while (more)` loop of
`decodeCocoRleString`: bit 0x20 continues the value, otherwise the value is
finished (with optional sign extension via bit 0x10) and appended. -/
def stepUnit (st : VarState) (cb : Nat) : VarState :=
  if cb / 32 % 2 = 1 then
    { st with k := st.k + 1, x := orPayload st.x (cb % 32) st.k, inUnit := true }
  else
    { k := 0, x := 0, inUnit := false, acc := finishValue st.acc (unitFinX st.x st.k cb) }

/-- Run the decoder over the in-range characters.  The nested loops of
`decodeCocoRleString` consume each string position exactly once, in order, so
they are a left fold of `stepUnit` over the char codes. -/
def processChars (s : List Nat) (st : VarState) : VarState :=
  s.foldl (fun st code => stepUnit st (unitBits code)) st

/-- End of string: if the final unit was still open (`more` set on the last
char), `decodeCocoRleString` reads `charCodeAt(length)`, which is NaN; all
its bit tests give 0, so the partial value is finished as if by a zero
unit. -/
def finishStream (st : VarState) : List Int :=
  if st.inUnit then (stepUnit st 0).acc else st.acc

/-- Model of `decodeCocoRleString` (src/utils.ts): decodes the COCO
compressed RLE string (given as its list of char codes) into run lengths. -/
def decodeCocoRleString (s : List Nat) : List Int :=
  finishStream (processChars s { k := 0, x := 0, inUnit := false, acc := [] })

/-- Unit step of the decoder with the delta rule omitted: appends the value
as read from the wire.  Used to express what the "raw decoded delta" of a
position is. -/
def stepUnitRaw (st : VarState) (cb : Nat) : VarState :=
  if cb / 32 % 2 = 1 then
    { st with k := st.k + 1, x := orPayload st.x (cb % 32) st.k, inUnit := true }
  else
    { k := 0, x := 0, inUnit := false, acc := st.acc ++ [toSigned32 (unitFinX st.x st.k cb)] }

/-- Raw decoder run (no delta rule). -/
def processCharsRaw (s : List Nat) (st : VarState) : VarState :=
  s.foldl (fun st code => stepUnitRaw st (unitBits code)) st

/-- Raw decoder end-of-string step. -/
def finishStreamRaw (st : VarState) : List Int :=
  if st.inUnit then (stepUnitRaw st 0).acc else st.acc

/-- The raw (pre-delta) value sequence of the compressed RLE string. -/
def decodeRawValues (s : List Nat) : List Int :=
  finishStreamRaw (processCharsRaw s { k := 0, x := 0, inUnit := false, acc := [] })

/-- Undeltification as a standalone fold: append each raw value `v`, adding
`out[m-2]` when the write index `m` exceeds 2 — exactly the
`if (m > 2) x += counts[m-2]` step of `decodeCocoRleString`. -/
def applyDeltaFrom (acc : List Int) : List Int → List Int
  | [] => acc
  | v :: vs =>
      applyDeltaFrom
        (acc ++ [if acc.length > 2 then v + acc.getD (acc.length - 2) 0 else v]) vs

theorem applyDeltaFrom_length (l : List Int) :
    ∀ acc : List Int, (applyDeltaFrom acc l).length = acc.length + l.length := by
  induction l with
  | nil => intro acc; rfl
  | cons v vs ih =>
      intro acc
      show (applyDeltaFrom (acc ++ [_]) vs).length = _
      rw [ih]
      simp only [List.length_append, List.length_cons, List.length_nil]
      omega

theorem applyDeltaFrom_isPref (l : List Int) :
    ∀ acc : List Int, acc <+: applyDeltaFrom acc l := by
  induction l with
  | nil => intro acc; exact List.prefix_refl acc
  | cons v vs ih =>
      intro acc
      exact (List.prefix_append acc _).trans (ih _)

theorem applyDeltaFrom_getD_lt (l : List Int) (acc : List Int) (i : Nat)
    (h : i < acc.length) : (applyDeltaFrom acc l).getD i 0 = acc.getD i 0 := by
  obtain ⟨t, ht⟩ := applyDeltaFrom_isPref l acc
  rw [← ht, List.getD_append _ _ _ _ h]

/-- Index characterization of undeltification: entry `i` is the raw value at
`i` plus, when `i > 2`, the already-undeltified entry two positions back. -/
theorem applyDeltaFrom_getD (l : List Int) :
    ∀ (acc : List Int) (i : Nat), acc.length ≤ i → i < acc.length + l.length →
      (applyDeltaFrom acc l).getD i 0 =
        l.getD (i - acc.length) 0 +
          (if i > 2 then (applyDeltaFrom acc l).getD (i - 2) 0 else 0) := by
  induction l with
  | nil =>
      intro acc i hle hlt
      simp only [List.length_nil, Nat.add_zero] at hlt
      omega
  | cons v vs ih =>
      intro acc i hle hlt
      have hw : applyDeltaFrom acc (v :: vs) =
          applyDeltaFrom
            (acc ++ [if acc.length > 2 then v + acc.getD (acc.length - 2) 0 else v]) vs := rfl
      set w := if acc.length > 2 then v + acc.getD (acc.length - 2) 0 else v with hwdef
      have hlen : (acc ++ [w]).length = acc.length + 1 := by simp
      rcases Nat.eq_or_lt_of_le hle with heq | hgt
      · subst heq
        rw [hw, applyDeltaFrom_getD_lt vs _ acc.length (by simp)]
        rw [List.getD_append_right _ _ _ _ (le_refl _), Nat.sub_self]
        simp only [List.getD_cons_zero, Nat.sub_self]
        by_cases h3 : acc.length > 2
        · rw [if_pos h3]
          rw [applyDeltaFrom_getD_lt vs _ (acc.length - 2) (by simp; omega)]
          rw [List.getD_append _ _ _ _ (by omega), hwdef, if_pos h3]
        · rw [if_neg h3, add_zero, hwdef, if_neg h3]
      · have hcond : (acc ++ [w]).length ≤ i := by rw [hlen]; omega
        have hlt2 : i < (acc ++ [w]).length + vs.length := by
          rw [hlen]; simp only [List.length_cons] at hlt; omega
        rw [hw, ih (acc ++ [w]) i hcond hlt2]
        have h1 : (v :: vs).getD (i - acc.length) 0 = vs.getD (i - (acc ++ [w]).length) 0 := by
          rw [hlen]
          have h2 : i - acc.length = (i - (acc.length + 1)) + 1 := by omega
          rw [h2, List.getD_cons_succ]
        rw [h1]

theorem processChars_cons (c : Nat) (rest : List Nat) (st : VarState) :
    processChars (c :: rest) st = processChars rest (stepUnit st (unitBits c)) := rfl

theorem processCharsRaw_cons (c : Nat) (rest : List Nat) (st : VarState) :
    processCharsRaw (c :: rest) st = processCharsRaw rest (stepUnitRaw st (unitBits c)) := rfl

theorem stepUnit_more (st : VarState) {cb : Nat} (hm : cb / 32 % 2 = 1) :
    stepUnit st cb = ⟨st.k + 1, orPayload st.x (cb % 32) st.k, true, st.acc⟩ := by
  cases st; simp [stepUnit, hm]

theorem stepUnit_fin (st : VarState) {cb : Nat} (hm : ¬cb / 32 % 2 = 1) :
    stepUnit st cb = ⟨0, 0, false, finishValue st.acc (unitFinX st.x st.k cb)⟩ := by
  cases st; simp [stepUnit, hm]

theorem stepUnitRaw_more (st : VarState) {cb : Nat} (hm : cb / 32 % 2 = 1) :
    stepUnitRaw st cb = ⟨st.k + 1, orPayload st.x (cb % 32) st.k, true, st.acc⟩ := by
  cases st; simp [stepUnitRaw, hm]

theorem stepUnitRaw_fin (st : VarState) {cb : Nat} (hm : ¬cb / 32 % 2 = 1) :
    stepUnitRaw st cb = ⟨0, 0, false, st.acc ++ [toSigned32 (unitFinX st.x st.k cb)]⟩ := by
  cases st; simp [stepUnitRaw, hm]

/-- The raw run's unit-level state is independent of the accumulated output,
which it only ever extends. -/
theorem processCharsRaw_shift (s : List Nat) :
    ∀ (k x : Nat) (b : Bool) (vs : List Int),
      processCharsRaw s ⟨k, x, b, vs⟩ =
        ⟨(processCharsRaw s ⟨k, x, b, []⟩).k, (processCharsRaw s ⟨k, x, b, []⟩).x,
          (processCharsRaw s ⟨k, x, b, []⟩).inUnit,
          vs ++ (processCharsRaw s ⟨k, x, b, []⟩).acc⟩ := by
  induction s with
  | nil => intro k x b vs; simp [processCharsRaw]
  | cons c rest ih =>
      intro k x b vs
      by_cases hm : unitBits c / 32 % 2 = 1
      · rw [processCharsRaw_cons, processCharsRaw_cons, stepUnitRaw_more _ hm,
          stepUnitRaw_more _ hm]
        exact ih (k + 1) _ true vs
      · rw [processCharsRaw_cons, processCharsRaw_cons, stepUnitRaw_fin _ hm,
          stepUnitRaw_fin _ hm]
        simp only [List.nil_append]
        rw [ih 0 0 false (vs ++ [toSigned32 (unitFinX x k (unitBits c))]),
          ih 0 0 false [toSigned32 (unitFinX x k (unitBits c))]]
        simp

theorem finishStreamRaw_shift (k x : Nat) (b : Bool) (vs out : List Int) :
    finishStreamRaw ⟨k, x, b, vs ++ out⟩ = vs ++ finishStreamRaw ⟨k, x, b, out⟩ := by
  cases b with
  | false => simp [finishStreamRaw]
  | true =>
      by_cases hm : (0 : Nat) / 32 % 2 = 1
      · simp at hm
      · simp only [finishStreamRaw, if_pos rfl, stepUnitRaw_fin _ hm]
        simp

/-- Core correspondence: the decoder's output is the undeltification of the
raw value sequence. -/
theorem processChars_applyDelta (s : List Nat) :
    ∀ (k x : Nat) (b : Bool) (acc : List Int),
      finishStream (processChars s ⟨k, x, b, acc⟩) =
        applyDeltaFrom acc (finishStreamRaw (processCharsRaw s ⟨k, x, b, []⟩)) := by
  induction s with
  | nil =>
      intro k x b acc
      cases b with
      | false => simp [processChars, processCharsRaw, finishStream, finishStreamRaw,
          applyDeltaFrom]
      | true =>
          have hm : ¬(0 : Nat) / 32 % 2 = 1 := by simp
          simp only [processChars, processCharsRaw, List.foldl_nil, finishStream,
            if_pos rfl, finishStreamRaw, stepUnit_fin _ hm, stepUnitRaw_fin _ hm]
          simp [finishValue, applyDeltaFrom]
  | cons c rest ih =>
      intro k x b acc
      by_cases hm : unitBits c / 32 % 2 = 1
      · rw [processChars_cons, processCharsRaw_cons, stepUnit_more _ hm,
          stepUnitRaw_more _ hm]
        exact ih (k + 1) _ true acc
      · rw [processChars_cons, processCharsRaw_cons, stepUnit_fin _ hm,
          stepUnitRaw_fin _ hm]
        simp only [List.nil_append]
        rw [processCharsRaw_shift rest 0 0 false [toSigned32 (unitFinX x k (unitBits c))]]
        rw [finishStreamRaw_shift, ih 0 0 false _]
        simp [finishValue, applyDeltaFrom]

theorem decode_eq_applyDelta (s : List Nat) :
    decodeCocoRleString s = applyDeltaFrom [] (decodeRawValues s) :=
  processChars_applyDelta s 0 0 false []

theorem processChars_append (s t : List Nat) (st : VarState) :
    processChars (s ++ t) st = processChars t (processChars s st) := by
  simp [processChars]

/-- C1 (amended): in `decodeCocoRleString`, the delta rule starts with the
FOURTH decoded value — for output index `i > 2`, the stored value is the raw
decoded delta plus the already-stored value at `i - 2`; the values at
indices 0, 1 AND 2 are the raw decoded values unchanged.  (The claim placed
the switch at index 2; the code's guard is `m > 2`.) -/
theorem c1_delta_rule (s : List Nat) (i : Nat)
    (hlt : i < (decodeCocoRleString s).length) :
    (decodeCocoRleString s).getD i 0 =
      (decodeRawValues s).getD i 0 +
        (if i > 2 then (decodeCocoRleString s).getD (i - 2) 0 else 0) := by
  have hlen : (decodeCocoRleString s).length = (decodeRawValues s).length := by
    rw [decode_eq_applyDelta, applyDeltaFrom_length]; simp
  rw [decode_eq_applyDelta]
  have h := applyDeltaFrom_getD (decodeRawValues s) [] i (Nat.zero_le i)
    (by simp only [List.length_nil, Nat.zero_add]; rw [← hlen]; exact hlt)
  simpa [decode_eq_applyDelta] using h

/-- Witness for C1 (amended) at the concrete string "12345" (codes
49..53): the decoded counts are [1,2,3,6,8] and entry 3 is raw 4 plus
entry 1. -/
theorem c1_delta_rule_witness :
    (decodeCocoRleString [49, 50, 51, 52, 53]).getD 3 0 =
      (decodeRawValues [49, 50, 51, 52, 53]).getD 3 0 +
        (if 3 > 2 then (decodeCocoRleString [49, 50, 51, 52, 53]).getD (3 - 2) 0 else 0) :=
  c1_delta_rule [49, 50, 51, 52, 53] 3 (by decide)

/-- C1 counterexample: on the string "111" (codes 49,49,49) the decoder
yields [1,1,1]; the value stored at index 2 is the raw decoded value 1 and
NOT raw + output[0] = 2, refuting the claim that the delta rule starts at
output index 2. -/
theorem c1_counterexample :
    decodeCocoRleString [49, 49, 49] = [1, 1, 1] ∧
    decodeRawValues [49, 49, 49] = [1, 1, 1] ∧
    ¬((decodeCocoRleString [49, 49, 49]).getD 2 0 =
        (decodeRawValues [49, 49, 49]).getD 2 0 +
          (decodeCocoRleString [49, 49, 49]).getD 0 0) := by
  decide

/-- C5 (amended): a compressed RLE string that ends mid-unit (the last
consumed unit has bit 0x20 set and no characters remain) does NOT fail:
`decodeCocoRleString` terminates normally, treating the out-of-range read
(NaN) as a terminating zero unit, i.e. it decodes exactly as if a '0'
character (code 48) were appended.  Rasterization and centroid therefore
see an ordinary counts array. -/
theorem c5_midUnit (s : List Nat)
    (h : (processChars s ⟨0, 0, false, []⟩).inUnit = true) :
    decodeCocoRleString s = decodeCocoRleString (s ++ [48]) := by
  have hm0 : ¬(0 : Nat) / 32 % 2 = 1 := by simp
  have h48 : unitBits 48 = 0 := by decide
  unfold decodeCocoRleString
  rw [processChars_append]
  rw [show processChars [48] (processChars s ⟨0, 0, false, []⟩) =
      stepUnit (processChars s ⟨0, 0, false, []⟩) (unitBits 48) from rfl, h48]
  rw [stepUnit_fin _ hm0]
  simp [finishStream, h, stepUnit_fin _ hm0]

/-- Witness for C5 (amended): the one-character string "P" (code 80, bit
0x20 set) ends mid-unit and decodes like "P0". -/
theorem c5_midUnit_witness :
    decodeCocoRleString [80] = decodeCocoRleString [80, 48] :=
  c5_midUnit [80] (by decide)

/-- C5 counterexample: the string "P" (code 80) ends in the middle of a
variable-length unit, yet the decoder terminates normally with the result
[0] instead of failing with a decode error. -/
theorem c5_counterexample :
    (processChars [80] ⟨0, 0, false, []⟩).inUnit = true ∧
    decodeCocoRleString [80] = [0] := by
  decide


/-! ## Mask rasterizer -/

structure RState where
  idx : Nat
  rem : Int
  cur : Nat
  deriving Repr

def advanceAux (counts : List Int) : Nat → Nat → Int → Nat → Nat × Int × Nat
  | 0, idx, rem, cur =>
      if rem = 0 then
        if idx + 1 < counts.length then
          (idx + 1, counts.getD (idx + 1) 0, (idx + 1) % 2)
        else (idx + 1, rem, cur)
      else (idx, rem, cur)
  | g + 1, idx, rem, cur =>
      if rem = 0 then
        if idx + 1 < counts.length then
          advanceAux counts g (idx + 1) (counts.getD (idx + 1) 0) ((idx + 1) % 2)
        else (idx + 1, rem, cur)
      else (idx, rem, cur)

def advance (counts : List Int) (st : RState) : RState :=
  let r := advanceAux counts (counts.length - st.idx) st.idx st.rem st.cur
  ⟨r.1, r.2.1, r.2.2⟩

def decRem (r : Int) : Int := if r > 0 then r - 1 else r

def scanVals (counts : List Int) : RState → Nat → List Nat
  | _, 0 => []
  | st, n + 1 =>
      let a := advance counts st
      a.cur :: scanVals counts ⟨a.idx, decRem a.rem, a.cur⟩ n

def expandTail (i : Nat) : List Int → List Nat
  | [] => []
  | c :: cs => List.replicate c.toNat (i % 2) ++ expandTail (i + 1) cs

-- advance unfolding equations
theorem advanceAux_pos (counts : List Int) (gas idx : Nat) {rem : Int} (cur : Nat)
    (h : rem ≠ 0) : advanceAux counts gas idx rem cur = (idx, rem, cur) := by
  cases gas <;> simp [advanceAux, h]

theorem advance_pos (counts : List Int) (st : RState) (h : st.rem ≠ 0) :
    advance counts st = st := by
  cases st with
  | mk idx rem cur => simp [advance, advanceAux_pos counts _ idx cur h]

theorem advance_zero_stop (counts : List Int) (idx cur : Nat)
    (h2 : ¬idx + 1 < counts.length) :
    advance counts ⟨idx, 0, cur⟩ = ⟨idx + 1, 0, cur⟩ := by
  unfold advance
  cases hg : counts.length - idx <;> simp [advanceAux, h2]

theorem advance_zero_step (counts : List Int) (idx cur : Nat)
    (h2 : idx + 1 < counts.length) :
    advance counts ⟨idx, 0, cur⟩ =
      advance counts ⟨idx + 1, counts.getD (idx + 1) 0, (idx + 1) % 2⟩ := by
  have hg : counts.length - idx = (counts.length - (idx + 1)) + 1 := by omega
  unfold advance
  simp only [hg]
  simp [advanceAux, h2]

-- scanVals equations
theorem scanVals_succ (counts : List Int) (st : RState) (n : Nat) :
    scanVals counts st (n + 1) =
      (advance counts st).cur ::
        scanVals counts
          ⟨(advance counts st).idx, decRem (advance counts st).rem,
            (advance counts st).cur⟩ n := rfl

theorem scan_zero_shift (counts : List Int) (n idx cur : Nat)
    (h2 : idx + 1 < counts.length) :
    scanVals counts ⟨idx, 0, cur⟩ n =
      scanVals counts ⟨idx + 1, counts.getD (idx + 1) 0, (idx + 1) % 2⟩ n := by
  cases n with
  | zero => rfl
  | succ m => rw [scanVals_succ, scanVals_succ, advance_zero_step counts idx cur h2]

theorem scan_last (counts : List Int) :
    ∀ (n : Nat) (idx : Nat) (rem : Nat) (cur : Nat), counts.length ≤ idx + 1 →
      scanVals counts ⟨idx, (rem : Int), cur⟩ n = List.replicate n cur := by
  intro n
  induction n with
  | zero => intro idx rem cur h; rfl
  | succ m ih =>
      intro idx rem cur h
      cases rem with
      | zero =>
          simp only [Nat.cast_zero]
          rw [scanVals_succ, advance_zero_stop counts idx cur (by omega)]
          simp only [decRem]
          norm_num
          rw [List.replicate_succ]
          have h0 := ih (idx + 1) 0 cur (by omega)
          simp only [Nat.cast_zero] at h0
          rw [h0]
      | succ r =>
          have hpos : ((r + 1 : Nat) : Int) ≠ 0 := by positivity
          rw [scanVals_succ, advance_pos counts _ hpos]
          simp only [decRem]
          rw [if_pos (by positivity)]
          have : ((r + 1 : Nat) : Int) - 1 = ((r : Nat) : Int) := by push_cast; ring
          rw [this]
          simp only [List.replicate_succ]
          rw [ih idx r cur h]

end MedSeg

namespace MedSeg

theorem expandTail_length (cs : List Int) :
    ∀ i, (expandTail i cs).length = (cs.map Int.toNat).sum := by
  induction cs with
  | nil => intro i; rfl
  | cons c cs ih => intro i; simp [expandTail, ih]

theorem scan_expandTail (counts : List Int) :
    ∀ (rest : List Int) (i : Nat) (rem : Nat) (n : Nat),
      counts.drop (i + 1) = rest → i < counts.length → (∀ c ∈ rest, 0 ≤ c) →
      scanVals counts ⟨i, (rem : Int), i % 2⟩ n =
        (List.replicate rem (i % 2) ++ expandTail (i + 1) rest).take n ++
          List.replicate
            (n - (List.replicate rem (i % 2) ++ expandTail (i + 1) rest).length)
            ((counts.length - 1) % 2) := by
  intro rest
  induction rest with
  | nil =>
      intro i rem n hdrop hlen hnn
      have hi1 : counts.length = i + 1 := by
        have hd := congrArg List.length hdrop
        simp only [List.length_drop, List.length_nil] at hd
        omega
      rw [scan_last counts n i rem (i % 2) (by omega)]
      simp only [expandTail, List.append_nil, hi1, Nat.add_sub_cancel]
      rw [List.take_replicate, List.length_replicate, ← List.replicate_add]
      congr 1
      omega
  | cons c cs ihout =>
      intro i rem n hdrop hlen hnn
      have hlt : i + 1 < counts.length := by
        have hd := congrArg List.length hdrop
        simp only [List.length_drop, List.length_cons] at hd
        omega
      have hgd : counts.getD (i + 1) 0 = c := by
        have h0 : counts[i + 1]? = some c := by
          have hd := congrArg (fun l => l[0]?) hdrop
          simpa [List.getElem?_drop] using hd
        simp [List.getD_eq_getElem?_getD, h0]
      have hd2 : counts.drop (i + 1 + 1) = cs := by
        rw [show i + 1 + 1 = i + 1 + 1 from rfl, ← List.drop_drop, hdrop]
        rfl
      have hnn2 : ∀ x ∈ cs, (0 : Int) ≤ x := fun x hx => hnn x (by simp [hx])
      have hc0 : (0 : Int) ≤ c := hnn c (by simp)
      induction rem generalizing n with
      | zero =>
          simp only [Nat.cast_zero, List.replicate_zero, List.nil_append]
          rw [scan_zero_shift counts n i (i % 2) hlt, hgd]
          have hres := ihout (i + 1) c.toNat n hd2 hlt hnn2
          rw [Int.toNat_of_nonneg hc0] at hres
          rw [hres]
          simp [expandTail]
      | succ r ihin =>
          cases n with
          | zero => simp [scanVals]
          | succ m =>
              have hpos : ((r + 1 : Nat) : Int) ≠ 0 := by positivity
              rw [scanVals_succ, advance_pos counts _ hpos]
              simp only [decRem]
              rw [if_pos (by positivity)]
              have hc : ((r + 1 : Nat) : Int) - 1 = ((r : Nat) : Int) := by push_cast; ring
              rw [hc, ihin m]
              simp only [List.replicate_succ, List.cons_append, List.take_succ_cons]
              simp only [List.length_append, List.length_replicate, List.length_cons]
              congr 3
              omega


theorem scan_expand (counts : List Int) (hne : counts ≠ [])
    (hnn : ∀ c ∈ counts, 0 ≤ c) (n : Nat) :
    scanVals counts ⟨0, counts.getD 0 0, 0⟩ n =
      (expandTail 0 counts).take n ++
        List.replicate (n - (expandTail 0 counts).length) ((counts.length - 1) % 2) := by
  obtain ⟨c0, cs, rfl⟩ : ∃ c0 cs, counts = c0 :: cs := by
    cases counts with
    | nil => exact absurd rfl hne
    | cons a l => exact ⟨a, l, rfl⟩
  have hc0 : (0 : Int) ≤ c0 := hnn c0 (by simp)
  have h := scan_expandTail (c0 :: cs) cs 0 c0.toNat n (by simp) (by simp)
    (fun x hx => hnn x (by simp [hx]))
  rw [Int.toNat_of_nonneg hc0] at h
  simpa [expandTail] using h

/-! Buffer-level rasterization -/

def writeMask (data : Nat → Nat) (base : Nat) (color : Nat × Nat × Nat) : Nat → Nat :=
  fun j =>
    if j = base then color.1
    else if j = base + 1 then color.2.1
    else if j = base + 2 then color.2.2
    else if j = base + 3 then 210
    else data j

def rasterLoop (counts : List Int) (w : Nat) (color : Nat × Nat × Nat) :
    List (Nat × Nat) → RState → (Nat → Nat) → (Nat → Nat)
  | [], _, data => data
  | p :: ps, st, data =>
      let a := advance counts st
      let data2 := if a.cur = 1 then writeMask data ((p.2 * w + p.1) * 4) color else data
      rasterLoop counts w color ps ⟨a.idx, decRem a.rem, a.cur⟩ data2

def colMajor (w h : Nat) : List (Nat × Nat) :=
  (List.range w).flatMap (fun x => (List.range h).map (fun y => (x, y)))

theorem writeMask_alpha (data : Nat → Nat) (B : Nat) (c : Nat × Nat × Nat) (p : Nat) :
    writeMask data (B * 4) c (4 * p + 3) = if B = p then 210 else data (4 * p + 3) := by
  by_cases hBp : B = p
  · subst hBp
    unfold writeMask
    rw [if_neg (by omega), if_neg (by omega), if_neg (by omega), if_pos (by omega),
      if_pos rfl]
  · unfold writeMask
    rw [if_neg (by omega), if_neg (by omega), if_neg (by omega), if_neg (by omega),
      if_neg hBp]

theorem rasterLoop_cons (counts : List Int) (w : Nat) (color : Nat × Nat × Nat)
    (q : Nat × Nat) (ps : List (Nat × Nat)) (st : RState) (data : Nat → Nat) :
    rasterLoop counts w color (q :: ps) st data =
      rasterLoop counts w color ps
        ⟨(advance counts st).idx, decRem (advance counts st).rem, (advance counts st).cur⟩
        (if (advance counts st).cur = 1 then writeMask data ((q.2 * w + q.1) * 4) color
         else data) := rfl

theorem rasterLoop_alpha (counts : List Int) (w : Nat) (color : Nat × Nat × Nat) :
    ∀ (ps : List (Nat × Nat)) (st : RState) (data : Nat → Nat) (p : Nat),
      rasterLoop counts w color ps st data (4 * p + 3) =
        if ∃ e ∈ ps.zip (scanVals counts st ps.length), e.2 = 1 ∧ e.1.2 * w + e.1.1 = p
        then 210 else data (4 * p + 3) := by
  intro ps
  induction ps with
  | nil => intro st data p; simp [rasterLoop, scanVals]
  | cons q ps ih =>
      intro st data p
      rw [rasterLoop_cons, ih]
      simp only [show (q :: ps).length = ps.length + 1 from rfl, scanVals_succ,
        List.zip_cons_cons, List.exists_mem_cons_iff]
      by_cases hc : (advance counts st).cur = 1
      · rw [if_pos hc, writeMask_alpha]
        by_cases hrest : (∃ e ∈ ps.zip (scanVals counts ⟨(advance counts st).idx,
            decRem (advance counts st).rem, (advance counts st).cur⟩ ps.length),
            e.2 = 1 ∧ e.1.2 * w + e.1.1 = p)
        · rw [if_pos hrest, if_pos (Or.inr hrest)]
        · rw [if_neg hrest]
          by_cases hqp : q.2 * w + q.1 = p
          · rw [if_pos hqp, if_pos (Or.inl ⟨hc, hqp⟩)]
          · rw [if_neg hqp, if_neg (by
              rintro (⟨h1, h2⟩ | h)
              exacts [hqp h2, hrest h])]
      · rw [if_neg hc]
        by_cases hrest : (∃ e ∈ ps.zip (scanVals counts ⟨(advance counts st).idx,
            decRem (advance counts st).rem, (advance counts st).cur⟩ ps.length),
            e.2 = 1 ∧ e.1.2 * w + e.1.1 = p)
        · rw [if_pos hrest, if_pos (Or.inr hrest)]
        · rw [if_neg hrest, if_neg (by
            rintro (⟨h1, h2⟩ | h)
            exacts [hc h1, hrest h])]


theorem colMajor_eq (w h : Nat) :
    colMajor w h = (List.range (w * h)).map (fun t => (t / h, t % h)) := by
  induction w with
  | zero => simp [colMajor]
  | succ v ih =>
      unfold colMajor at *
      rw [List.range_succ, List.flatMap_append, ih]
      rw [show (v + 1) * h = v * h + h from by ring, List.range_add, List.map_append]
      congr 1
      · simp only [List.flatMap_cons, List.flatMap_nil, List.append_nil]
        rw [List.map_map]
        apply List.map_congr_left
        intro y hy
        rw [List.mem_range] at hy
        have h0 : 0 < h := by omega
        simp only [Function.comp_apply]
        congr 1
        · rw [show v * h + y = h * v + y from by ring, Nat.mul_add_div h0,
            Nat.div_eq_of_lt hy, Nat.add_zero]
        · rw [show v * h + y = h * v + y from by ring, Nat.mul_add_mod,
            Nat.mod_eq_of_lt hy]

theorem colMajor_length (w h : Nat) : (colMajor w h).length = w * h := by
  rw [colMajor_eq]; simp

theorem scanVals_length (counts : List Int) :
    ∀ (n : Nat) (st : RState), (scanVals counts st n).length = n := by
  intro n
  induction n with
  | zero => intro st; rfl
  | succ m ih => intro st; rw [scanVals_succ]; simp [ih]

theorem eq_map_getD_range (l : List Nat) :
    l = (List.range l.length).map (fun i => l.getD i 0) := by
  apply List.ext_getElem (by simp)
  intro n h1 h2
  simp only [List.getElem_map, List.getElem_range]
  rw [List.getD_eq_getElem?_getD, List.getElem?_eq_getElem h1]
  rfl

theorem grid_lt {w h x y : Nat} (hx : x < w) (hy : y < h) : x * h + y < w * h := by
  calc x * h + y < x * h + h := by omega
  _ = (x + 1) * h := by ring
  _ ≤ w * h := Nat.mul_le_mul_right h hx

theorem grid_unique {w A B C D : Nat} (hB : B < w) (hD : D < w)
    (h : A * w + B = C * w + D) : A = C ∧ B = D := by
  have hw : 0 < w := by omega
  have h1 : (A * w + B) / w = A := by
    rw [show A * w + B = w * A + B from by ring, Nat.mul_add_div hw,
      Nat.div_eq_of_lt hB, Nat.add_zero]
  have h2 : (C * w + D) / w = C := by
    rw [show C * w + D = w * C + D from by ring, Nat.mul_add_div hw,
      Nat.div_eq_of_lt hD, Nat.add_zero]
  have hAC : A = C := by rw [← h1, ← h2, h]
  constructor
  · exact hAC
  · subst hAC; omega

/-- Alpha byte of the raster output at pixel `(x, y)` (row-major position
`y * w + x`): 210 exactly when the column-major scan value at position
`x * h + y` is foreground. -/
theorem raster_alpha_at (counts : List Int) (w h : Nat) (color : Nat × Nat × Nat)
    (st0 : RState) (x y : Nat) (hx : x < w) (hy : y < h) :
    rasterLoop counts w color (colMajor w h) st0 (fun _ => 0) (4 * (y * w + x) + 3) =
      if (scanVals counts st0 (w * h)).getD (x * h + y) 0 = 1 then 210 else 0 := by
  rw [rasterLoop_alpha, colMajor_length]
  set vals := scanVals counts st0 (w * h) with hvals
  have hlen : vals.length = w * h := scanVals_length counts (w * h) st0
  have hzip : (colMajor w h).zip vals =
      (List.range (w * h)).map (fun t => ((t / h, t % h), vals.getD t 0)) := by
    rw [colMajor_eq]
    conv_lhs => rw [show vals = (List.range vals.length).map (fun i => vals.getD i 0) from
      eq_map_getD_range vals, hlen]
    rw [List.zip_map']
  rw [hzip]
  have h0 : 0 < h := by omega
  have hiff : (∃ e ∈ (List.range (w * h)).map (fun t => ((t / h, t % h), vals.getD t 0)),
      e.2 = 1 ∧ e.1.2 * w + e.1.1 = y * w + x) ↔ vals.getD (x * h + y) 0 = 1 := by
    constructor
    · rintro ⟨e, hmem, h1, h2⟩
      rw [List.mem_map] at hmem
      obtain ⟨t, htr, rfl⟩ := hmem
      dsimp only at h1 h2
      rw [List.mem_range] at htr
      have hth : t % h < h := Nat.mod_lt t h0
      have htw : t / h < w := by
        rw [Nat.div_lt_iff_lt_mul h0]
        rw [Nat.mul_comm w h] at htr
        rw [Nat.mul_comm]
        exact htr
      obtain ⟨hy2, hx2⟩ := grid_unique htw hx h2
      have hdm := Nat.div_add_mod t h
      rw [hx2, hy2] at hdm
      have ht : t = x * h + y := by rw [Nat.mul_comm x h]; omega
      rw [← ht]
      exact h1
    · intro hval
      have hdiv : (x * h + y) / h = x := by
        rw [show x * h + y = h * x + y from by ring, Nat.mul_add_div h0,
          Nat.div_eq_of_lt hy, Nat.add_zero]
      have hmod : (x * h + y) % h = y := by
        rw [show x * h + y = h * x + y from by ring, Nat.mul_add_mod,
          Nat.mod_eq_of_lt hy]
      refine ⟨(((x * h + y) / h, (x * h + y) % h), vals.getD (x * h + y) 0),
        List.mem_map.mpr ⟨x * h + y, List.mem_range.mpr (grid_lt hx hy), rfl⟩, hval, ?_⟩
      dsimp only
      rw [hdiv, hmod]
  simp only [hiff]


inductive CountsData where
  | arr (l : List Int)
  | str (s : List Nat)
  deriving Repr

structure COCORLE where
  counts : CountsData
  size : Nat × Nat
  deriving Repr

def normCounts : CountsData → List Int
  | .arr l => l
  | .str s => decodeCocoRleString s

def decodeRleToCanvas (rle : COCORLE) (color : Nat × Nat × Nat) : Option (Nat → Nat) :=
  let h := rle.size.1
  let w := rle.size.2
  let counts := normCounts rle.counts
  if counts.isEmpty then none
  else some (rasterLoop counts w color (colMajor w h) ⟨0, counts.getD 0 0, 0⟩ (fun _ => 0))

def foregroundCount (data : Nat → Nat) (h w : Nat) : Nat :=
  ((List.range (h * w)).filter (fun p => data (4 * p + 3) == 210)).length

def sumOdd : Nat → List Int → Nat
  | _, [] => 0
  | i, c :: cs => (if i % 2 = 1 then c.toNat else 0) + sumOdd (i + 1) cs

theorem countP_replicate (n : Nat) (a : Nat) (p : Nat → Bool) :
    (List.replicate n a).countP p = if p a then n else 0 := by
  induction n with
  | zero => simp
  | succ m ih =>
      rw [List.replicate_succ, List.countP_cons, ih]
      by_cases hp : p a <;> simp [hp]

theorem countP_expandTail (cs : List Int) :
    ∀ i, (expandTail i cs).countP (fun v => v == 1) = sumOdd i cs := by
  induction cs with
  | nil => intro i; rfl
  | cons c cs ih =>
      intro i
      rw [expandTail, List.countP_append, countP_replicate, ih, sumOdd]
      by_cases hi : i % 2 = 1
      · simp [hi]
      · have : i % 2 = 0 := by omega
        simp [this]

theorem sumOdd_le_sum (cs : List Int) : ∀ i, sumOdd i cs ≤ (cs.map Int.toNat).sum := by
  induction cs with
  | nil => intro i; simp [sumOdd]
  | cons c cs ih =>
      intro i
      rw [sumOdd]
      simp only [List.map_cons, List.sum_cons]
      have := ih (i + 1)
      by_cases hi : i % 2 = 1 <;> simp [hi] <;> omega

theorem transpose_perm (w h : Nat) :
    ((List.range (h * w)).map (fun p => p % w * h + p / w)).Perm (List.range (w * h)) := by
  rcases Nat.eq_zero_or_pos (h * w) with hz | hpos
  · have hz2 : w * h = 0 := by rw [Nat.mul_comm]; exact hz
    rw [hz, hz2]
    simp
  · have hw : 0 < w := by
      rcases Nat.eq_zero_or_pos w with h0 | h0
      · subst h0; simp at hpos
      · exact h0
    have hh : 0 < h := by
      rcases Nat.eq_zero_or_pos h with h0 | h0
      · subst h0; simp at hpos
      · exact h0
    apply List.perm_of_nodup_nodup_toFinset_eq
    · apply List.Nodup.map_on _ (List.nodup_range _)
      intro p1 h1 p2 h2 heq
      rw [List.mem_range] at h1 h2
      have hb1 : p1 / w < h := by
        rw [Nat.div_lt_iff_lt_mul hw]; exact h1
      have hb2 : p2 / w < h := by
        rw [Nat.div_lt_iff_lt_mul hw]; exact h2
      obtain ⟨hm, hd⟩ := grid_unique hb1 hb2 heq
      have d1 := Nat.div_add_mod p1 w
      have d2 := Nat.div_add_mod p2 w
      rw [hd] at d1
      omega
    · exact List.nodup_range _
    · apply Finset.ext
      intro a
      simp only [List.mem_toFinset, List.mem_map, List.mem_range]
      constructor
      · rintro ⟨p, hp, rfl⟩
        have hx : p % w < w := Nat.mod_lt p hw
        have hy : p / w < h := by
          rw [Nat.div_lt_iff_lt_mul hw]; exact hp
        exact grid_lt hx hy
      · intro ha
        refine ⟨a % h * w + a / h, ?_, ?_⟩
        · have hx : a % h < h := Nat.mod_lt a hh
          have hy : a / h < w := by
            rw [Nat.div_lt_iff_lt_mul hh]; exact ha
          exact grid_lt hx hy
        · have hx : a % h < h := Nat.mod_lt a hh
          have hy : a / h < w := by
            rw [Nat.div_lt_iff_lt_mul hh]; exact ha
          have hmod : (a % h * w + a / h) % w = a / h := by
            rw [Nat.mul_comm (a % h) w, Nat.mul_add_mod, Nat.mod_eq_of_lt hy]
          have hdiv : (a % h * w + a / h) / w = a % h := by
            rw [show a % h * w + a / h = w * (a % h) + a / h from by ring,
              Nat.mul_add_div hw, Nat.div_eq_of_lt hy, Nat.add_zero]
          rw [hmod, hdiv]
          have := Nat.div_add_mod a h
          rw [Nat.mul_comm] at this
          omega


/-- Counting foreground pixels in the rasterized buffer gives the total of
the odd-indexed run lengths, for a counts array of non-negative runs summing
exactly to `h * w`. -/
theorem foregroundCount_raster (counts : List Int) (h w : Nat) (color : Nat × Nat × Nat)
    (hne : counts ≠ []) (hnn : ∀ c ∈ counts, 0 ≤ c)
    (hsum : (counts.map Int.toNat).sum = h * w) :
    foregroundCount
      (rasterLoop counts w color (colMajor w h) ⟨0, counts.getD 0 0, 0⟩ (fun _ => 0)) h w =
      sumOdd 0 counts := by
  rcases Nat.eq_zero_or_pos (h * w) with hz | hpos
  · have hs := sumOdd_le_sum counts 0
    rw [hsum, hz] at hs
    rw [foregroundCount, hz]
    simp only [List.range_zero, List.filter_nil, List.length_nil]
    omega
  · have hw : 0 < w := by
      rcases Nat.eq_zero_or_pos w with h0 | h0
      · subst h0; simp at hpos
      · exact h0
    have hh : 0 < h := by
      rcases Nat.eq_zero_or_pos h with h0 | h0
      · subst h0; simp at hpos
      · exact h0
    set vals := scanVals counts ⟨0, counts.getD 0 0, 0⟩ (w * h) with hv
    have hlen : vals.length = w * h := scanVals_length counts (w * h) _
    have hexp : vals = expandTail 0 counts := by
      have hlenE : (expandTail 0 counts).length = h * w := by
        rw [expandTail_length]; exact hsum
      rw [hv, scan_expand counts hne hnn, hlenE,
        show w * h = h * w from Nat.mul_comm w h]
      rw [show List.take (h * w) (expandTail 0 counts) = expandTail 0 counts from by
        rw [← hlenE, List.take_length]]
      simp
    have hpt : ∀ p ∈ List.range (h * w),
        ((rasterLoop counts w color (colMajor w h) ⟨0, counts.getD 0 0, 0⟩ (fun _ => 0))
          (4 * p + 3) == 210) = (vals.getD (p % w * h + p / w) 0 == 1) := by
      intro p hp
      rw [List.mem_range] at hp
      have hx : p % w < w := Nat.mod_lt p hw
      have hy : p / w < h := by rw [Nat.div_lt_iff_lt_mul hw]; exact hp
      have hb : p / w * w + p % w = p := by
        have hdm := Nat.div_add_mod p w
        rw [Nat.mul_comm] at hdm
        omega
      have halpha := raster_alpha_at counts w h color ⟨0, counts.getD 0 0, 0⟩
        (p % w) (p / w) hx hy
      rw [hb, ← hv] at halpha
      rw [halpha]
      by_cases hvv : vals.getD (p % w * h + p / w) 0 = 1
      · rw [if_pos hvv, hvv]
        decide
      · rw [if_neg hvv, show ((0 : Nat) == 210) = false from by decide]
        symm
        rw [beq_eq_false_iff_ne]
        exact hvv
    rw [foregroundCount, List.filter_congr hpt, ← List.countP_eq_length_filter]
    rw [show (fun p => vals.getD (p % w * h + p / w) 0 == 1) =
        ((fun t => vals.getD t 0 == 1) ∘ fun p => p % w * h + p / w) from rfl]
    rw [← List.countP_map]
    rw [(transpose_perm w h).countP_eq]
    conv_lhs => rw [show List.range (w * h) = List.range vals.length from by rw [hlen]]
    rw [show List.countP (fun t => vals.getD t 0 == 1) (List.range vals.length) =
        List.countP ((fun v => v == 1) ∘ fun t => vals.getD t 0) (List.range vals.length)
        from rfl]
    rw [← List.countP_map, ← eq_map_getD_range vals]
    rw [hexp, countP_expandTail]


theorem getD_replicate (n : Nat) (a : Nat) (i : Nat) (d : Nat) :
    (List.replicate n a).getD i d = if i < n then a else d := by
  induction n generalizing i with
  | zero => simp
  | succ m ih =>
      rw [List.replicate_succ]
      cases i with
      | zero => simp
      | succ j =>
          rw [List.getD_cons_succ, ih]
          by_cases hj : j < m
          · rw [if_pos hj, if_pos (by omega)]
          · rw [if_neg hj, if_neg (by omega)]

/-- Trailing pixels on undershoot: when the scan position is at or past the
total of the runs, the produced value is frozen at the parity of the last
run index, `(counts.length - 1) % 2`. -/
theorem raster_tail_frozen (counts : List Int) (h w : Nat) (color : Nat × Nat × Nat)
    (hne : counts ≠ []) (hnn : ∀ c ∈ counts, 0 ≤ c)
    (x y : Nat) (hx : x < w) (hy : y < h)
    (hpos : (counts.map Int.toNat).sum ≤ x * h + y) :
    rasterLoop counts w color (colMajor w h) ⟨0, counts.getD 0 0, 0⟩ (fun _ => 0)
        (4 * (y * w + x) + 3) =
      if (counts.length - 1) % 2 = 1 then 210 else 0 := by
  rw [raster_alpha_at counts w h color _ x y hx hy]
  have hElen : (expandTail 0 counts).length = (counts.map Int.toNat).sum :=
    expandTail_length counts 0
  have ht : x * h + y < w * h := grid_lt hx hy
  have hgd : (scanVals counts ⟨0, counts.getD 0 0, 0⟩ (w * h)).getD (x * h + y) 0 =
      (counts.length - 1) % 2 := by
    rw [scan_expand counts hne hnn]
    have htake : (List.take (w * h) (expandTail 0 counts)).length =
        (expandTail 0 counts).length := by
      rw [List.length_take]
      omega
    rw [List.getD_append_right _ _ _ _ (by rw [htake]; omega)]
    rw [htake, getD_replicate, if_pos (by omega)]
  rw [hgd]

def centroidLoop (counts : List Int) :
    List (Nat × Nat) → RState → Nat × Nat × Nat → Nat × Nat × Nat
  | [], _, acc => acc
  | p :: ps, st, acc =>
      let a := advance counts st
      let acc2 := if a.cur = 1 then (acc.1 + p.1, acc.2.1 + p.2, acc.2.2 + 1) else acc
      centroidLoop counts ps ⟨a.idx, decRem a.rem, a.cur⟩ acc2

/-- Model of `calculateCentroid` (src/utils.ts): streaming accumulation of
sum-x, sum-y and foreground pixel count over the same column-major scan,
then exact division (rationals model the JS float quotients of integer
sums). -/
def calculateCentroid (rle : COCORLE) : Option (ℚ × ℚ) :=
  let h := rle.size.1
  let w := rle.size.2
  let counts := normCounts rle.counts
  if counts.isEmpty then none
  else
    let acc := centroidLoop counts (colMajor w h) ⟨0, counts.getD 0 0, 0⟩ (0, 0, 0)
    if acc.2.2 = 0 then none
    else some ((acc.1 : ℚ) / (acc.2.2 : ℚ), (acc.2.1 : ℚ) / (acc.2.2 : ℚ))

def fgPixels (entries : List ((Nat × Nat) × Nat)) : List (Nat × Nat) :=
  (entries.filter (fun e => e.2 == 1)).map (fun e => e.1)

theorem centroidLoop_cons (counts : List Int) (q : Nat × Nat) (ps : List (Nat × Nat))
    (st : RState) (acc : Nat × Nat × Nat) :
    centroidLoop counts (q :: ps) st acc =
      centroidLoop counts ps
        ⟨(advance counts st).idx, decRem (advance counts st).rem, (advance counts st).cur⟩
        (if (advance counts st).cur = 1 then (acc.1 + q.1, acc.2.1 + q.2, acc.2.2 + 1)
         else acc) := rfl

theorem centroidLoop_spec (counts : List Int) :
    ∀ (ps : List (Nat × Nat)) (st : RState) (tx ty tp : Nat),
      centroidLoop counts ps st (tx, ty, tp) =
        (tx + ((fgPixels (ps.zip (scanVals counts st ps.length))).map
            (fun q => q.1)).sum,
         ty + ((fgPixels (ps.zip (scanVals counts st ps.length))).map
            (fun q => q.2)).sum,
         tp + (fgPixels (ps.zip (scanVals counts st ps.length))).length) := by
  intro ps
  induction ps with
  | nil => intro st tx ty tp; simp [centroidLoop, scanVals, fgPixels]
  | cons q ps ih =>
      intro st tx ty tp
      rw [centroidLoop_cons]
      simp only [show (q :: ps).length = ps.length + 1 from rfl, scanVals_succ,
        List.zip_cons_cons]
      by_cases hc : (advance counts st).cur = 1
      · rw [if_pos hc, ih]
        have hfg : fgPixels ((q, (advance counts st).cur) ::
            ps.zip (scanVals counts ⟨(advance counts st).idx,
              decRem (advance counts st).rem, (advance counts st).cur⟩ ps.length)) =
            q :: fgPixels (ps.zip (scanVals counts ⟨(advance counts st).idx,
              decRem (advance counts st).rem, (advance counts st).cur⟩ ps.length)) := by
          simp [fgPixels, List.filter_cons, hc]
        rw [hfg]
        simp only [List.map_cons, List.sum_cons, List.length_cons]
        refine congrArg₂ Prod.mk ?_ (congrArg₂ Prod.mk ?_ ?_) <;> omega
      · rw [if_neg hc, ih]
        have hfg : fgPixels ((q, (advance counts st).cur) ::
            ps.zip (scanVals counts ⟨(advance counts st).idx,
              decRem (advance counts st).rem, (advance counts st).cur⟩ ps.length)) =
            fgPixels (ps.zip (scanVals counts ⟨(advance counts st).idx,
              decRem (advance counts st).rem, (advance counts st).cur⟩ ps.length)) := by
          simp [fgPixels, List.filter_cons, hc]
        rw [hfg]


/-- Second definition for the refinement claim, following the specification's
words: rasterize the RLE to a bitmap, collect the foreground pixels from the
output buffer, and average their row-major coordinates `(p % w, p / w)`. -/
def bitmapCentroid (rle : COCORLE) (color : Nat × Nat × Nat) : Option (ℚ × ℚ) :=
  (decodeRleToCanvas rle color).bind (fun data =>
    let h := rle.size.1
    let w := rle.size.2
    let fg := (List.range (h * w)).filter (fun p => data (4 * p + 3) == 210)
    if fg.length = 0 then none
    else some (((fg.map (fun p => p % w)).sum : ℚ) / (fg.length : ℚ),
               ((fg.map (fun p => p / w)).sum : ℚ) / (fg.length : ℚ)))

theorem decodeRle_arr_some (counts : List Int) (h w : Nat) (color : Nat × Nat × Nat)
    (hne : counts ≠ []) :
    decodeRleToCanvas ⟨.arr counts, (h, w)⟩ color =
      some (rasterLoop counts w color (colMajor w h) ⟨0, counts.getD 0 0, 0⟩
        (fun _ => 0)) := by
  rw [decodeRleToCanvas]
  rw [show normCounts (.arr counts) = counts from rfl]
  rw [if_neg (by simpa [List.isEmpty_iff] using hne)]

/-- Bridge between the buffer-side foreground pixel list and the scan-side
foreground list: same cardinality, same coordinate sums. -/
theorem fg_buffer_eq_scan (counts : List Int) (h w : Nat) (color : Nat × Nat × Nat)
    (hh : 0 < h) (hw : 0 < w) :
    ((List.range (h * w)).filter (fun p =>
        rasterLoop counts w color (colMajor w h) ⟨0, counts.getD 0 0, 0⟩ (fun _ => 0)
          (4 * p + 3) == 210)).length =
      (fgPixels ((colMajor w h).zip
        (scanVals counts ⟨0, counts.getD 0 0, 0⟩ (w * h)))).length ∧
    (((List.range (h * w)).filter (fun p =>
        rasterLoop counts w color (colMajor w h) ⟨0, counts.getD 0 0, 0⟩ (fun _ => 0)
          (4 * p + 3) == 210)).map (fun p => p % w)).sum =
      ((fgPixels ((colMajor w h).zip
        (scanVals counts ⟨0, counts.getD 0 0, 0⟩ (w * h)))).map (fun q => q.1)).sum ∧
    (((List.range (h * w)).filter (fun p =>
        rasterLoop counts w color (colMajor w h) ⟨0, counts.getD 0 0, 0⟩ (fun _ => 0)
          (4 * p + 3) == 210)).map (fun p => p / w)).sum =
      ((fgPixels ((colMajor w h).zip
        (scanVals counts ⟨0, counts.getD 0 0, 0⟩ (w * h)))).map (fun q => q.2)).sum := by
  set vals := scanVals counts ⟨0, counts.getD 0 0, 0⟩ (w * h) with hv
  have hlen : vals.length = w * h := scanVals_length counts (w * h) _
  -- pointwise alpha characterization over the pixel range
  have hpt : ∀ p ∈ List.range (h * w),
      ((rasterLoop counts w color (colMajor w h) ⟨0, counts.getD 0 0, 0⟩ (fun _ => 0))
        (4 * p + 3) == 210) = (vals.getD (p % w * h + p / w) 0 == 1) := by
    intro p hp
    rw [List.mem_range] at hp
    have hx : p % w < w := Nat.mod_lt p hw
    have hy : p / w < h := by rw [Nat.div_lt_iff_lt_mul hw]; exact hp
    have hb : p / w * w + p % w = p := by
      have hdm := Nat.div_add_mod p w
      rw [Nat.mul_comm] at hdm
      omega
    have halpha := raster_alpha_at counts w h color ⟨0, counts.getD 0 0, 0⟩
      (p % w) (p / w) hx hy
    rw [hb, ← hv] at halpha
    rw [halpha]
    by_cases hvv : vals.getD (p % w * h + p / w) 0 = 1
    · rw [if_pos hvv, hvv]
      decide
    · rw [if_neg hvv, show ((0 : Nat) == 210) = false from by decide]
      symm
      rw [beq_eq_false_iff_ne]
      exact hvv
  rw [List.filter_congr hpt]
  -- buffer-side list in scan coordinates
  have hfilt : (List.range (h * w)).filter (fun p => vals.getD (p % w * h + p / w) 0 == 1) =
      ((List.range (h * w)).filter (fun p => vals.getD (p % w * h + p / w) 0 == 1)) := rfl
  set L1 := (List.range (h * w)).filter (fun p => vals.getD (p % w * h + p / w) 0 == 1)
    with hL1
  set L2 := (List.range (w * h)).filter (fun t => vals.getD t 0 == 1) with hL2
  have hmapperm : (L1.map (fun p => p % w * h + p / w)).Perm L2 := by
    rw [hL1, hL2]
    rw [show (fun p => vals.getD (p % w * h + p / w) 0 == 1) =
        ((fun t => vals.getD t 0 == 1) ∘ fun p => p % w * h + p / w) from rfl]
    rw [← List.filter_map]
    exact (transpose_perm w h).filter _
  -- the scan-side fg list is L2 mapped through the scan coordinates
  have hzip : (colMajor w h).zip vals =
      (List.range (w * h)).map (fun t => ((t / h, t % h), vals.getD t 0)) := by
    rw [colMajor_eq]
    conv_lhs => rw [show vals = (List.range vals.length).map (fun i => vals.getD i 0) from
      eq_map_getD_range vals, hlen]
    rw [List.zip_map']
  have hfg2 : fgPixels ((colMajor w h).zip vals) =
      L2.map (fun t => (t / h, t % h)) := by
    rw [hzip, fgPixels, List.filter_map, List.map_map]
    rw [hL2]
    rfl
  -- membership bounds on L1
  have hmem1 : ∀ p ∈ L1, p < h * w := by
    intro p hp
    rw [hL1, List.mem_filter, List.mem_range] at hp
    exact hp.1
  have hx1 : ∀ p ∈ L1, p % w = (p % w * h + p / w) / h := by
    intro p hp
    have hy : p / w < h := by
      rw [Nat.div_lt_iff_lt_mul hw]; exact hmem1 p hp
    rw [show p % w * h + p / w = h * (p % w) + p / w from by ring, Nat.mul_add_div hh,
      Nat.div_eq_of_lt hy, Nat.add_zero]
  have hy1 : ∀ p ∈ L1, p / w = (p % w * h + p / w) % h := by
    intro p hp
    have hy : p / w < h := by
      rw [Nat.div_lt_iff_lt_mul hw]; exact hmem1 p hp
    rw [show p % w * h + p / w = h * (p % w) + p / w from by ring, Nat.mul_add_mod,
      Nat.mod_eq_of_lt hy]
  refine ⟨?len, ?xs, ?ys⟩
  case len =>
    rw [hfg2, List.length_map, ← hmapperm.length_eq, List.length_map]
  case xs =>
    rw [hfg2, List.map_map]
    rw [show ((fun q : Nat × Nat => q.1) ∘ fun t => (t / h, t % h)) =
        (fun t => t / h) from rfl]
    rw [← hmapperm.map (fun t => t / h) |>.sum_eq, List.map_map]
    apply congrArg List.sum
    apply List.map_congr_left
    intro p hp
    exact hx1 p hp
  case ys =>
    rw [hfg2, List.map_map]
    rw [show ((fun q : Nat × Nat => q.2) ∘ fun t => (t / h, t % h)) =
        (fun t => t % h) from rfl]
    rw [← hmapperm.map (fun t => t % h) |>.sum_eq, List.map_map]
    apply congrArg List.sum
    apply List.map_congr_left
    intro p hp
    exact hy1 p hp


/-- C4: the streaming centroid of `calculateCentroid` (accumulating x, y
sums and a count during the run-length scan, then dividing) equals the
bitmap centroid obtained by first rasterizing to a buffer and then
averaging the coordinates of all alpha-210 pixels, whenever at least one
foreground pixel exists; both quotients are computed exactly in ℚ. -/
theorem c4_centroid_refinement (counts : List Int) (h w : Nat) (color : Nat × Nat × Nat)
    (hnn : ∀ c ∈ counts, 0 ≤ c)
    (hfg : fgPixels ((colMajor w h).zip
      (scanVals counts ⟨0, counts.getD 0 0, 0⟩ (w * h))) ≠ []) :
    calculateCentroid ⟨.arr counts, (h, w)⟩ =
      bitmapCentroid ⟨.arr counts, (h, w)⟩ color := by
  have hwh : 0 < w * h := by
    by_contra hc
    push_neg at hc
    have h0 : w * h = 0 := by omega
    apply hfg
    have hcm : colMajor w h = [] := by
      rw [← List.length_eq_zero, colMajor_length]
      exact h0
    rw [hcm]
    rfl
  have hw : 0 < w := by
    rcases Nat.eq_zero_or_pos w with h0 | h0
    · subst h0; simp at hwh
    · exact h0
  have hh : 0 < h := by
    rcases Nat.eq_zero_or_pos h with h0 | h0
    · subst h0; simp at hwh
    · exact h0
  have hne : counts ≠ [] := by
    intro hnil
    apply hfg
    subst hnil
    have hvals : scanVals [] ⟨0, List.getD [] 0 0, 0⟩ (w * h) =
        List.replicate (w * h) 0 := by
      have hsl := scan_last [] (w * h) 0 0 0 (by simp)
      simpa using hsl
    rw [hvals, fgPixels]
    rw [List.filter_eq_nil.mpr ?allne]
    · rfl
    case allne =>
      intro e he
      have hsnd := (List.of_mem_zip he).2
      have : e.2 = 0 := List.eq_of_mem_replicate hsnd
      simp [this]
  -- contract the centroid loop
  have hcm_len : (colMajor w h).length = w * h := colMajor_length w h
  have hcl := centroidLoop_spec counts (colMajor w h) ⟨0, counts.getD 0 0, 0⟩ 0 0 0
  rw [hcm_len] at hcl
  set fg := fgPixels ((colMajor w h).zip
    (scanVals counts ⟨0, counts.getD 0 0, 0⟩ (w * h))) with hfgdef
  simp only [Nat.zero_add] at hcl
  have hlenfg : fg.length ≠ 0 := by
    intro h0
    exact hfg (List.length_eq_zero.mp h0)
  -- evaluate calculateCentroid
  have hcc : calculateCentroid ⟨.arr counts, (h, w)⟩ =
      some (((((fg.map (fun q => q.1)).sum : Nat) : ℚ)) / ((fg.length : Nat) : ℚ),
            ((((fg.map (fun q => q.2)).sum : Nat) : ℚ)) / ((fg.length : Nat) : ℚ)) := by
    rw [calculateCentroid]
    rw [show normCounts (.arr counts) = counts from rfl]
    rw [if_neg (by simpa [List.isEmpty_iff] using hne)]
    rw [hcl]
    rw [if_neg (by simpa using hlenfg)]
  rw [hcc]
  -- evaluate bitmapCentroid
  obtain ⟨hblen, hbx, hby⟩ := fg_buffer_eq_scan counts h w color hh hw
  rw [bitmapCentroid, decodeRle_arr_some counts h w color hne]
  rw [Option.some_bind]
  rw [← hfgdef] at hblen hbx hby
  rw [if_neg (by rw [hblen]; simpa using hlenfg)]
  rw [hblen, hbx, hby]


/-- Foreground pixels of the column-major scan, as `(x, y)` coordinates in
scan order, for the standard initial run state. -/
def scanFg (counts : List Int) (h w : Nat) : List (Nat × Nat) :=
  fgPixels ((colMajor w h).zip (scanVals counts ⟨0, counts.getD 0 0, 0⟩ (w * h)))

theorem fgPixels_zip_replicate_zero (l : List (Nat × Nat)) (n : Nat) :
    fgPixels (l.zip (List.replicate n 0)) = [] := by
  rw [fgPixels, List.filter_eq_nil_iff.mpr ?allne]
  · rfl
  case allne =>
    intro e he
    have hsnd := (List.of_mem_zip he).2
    have h0 : e.2 = 0 := List.eq_of_mem_replicate hsnd
    simp [h0]

theorem calculateCentroid_char (counts : List Int) (h w : Nat) (hne : counts ≠ []) :
    calculateCentroid ⟨.arr counts, (h, w)⟩ =
      if (scanFg counts h w).length = 0 then none
      else some (((((scanFg counts h w).map (fun q => q.1)).sum : Nat) : ℚ) /
            (((scanFg counts h w).length : Nat) : ℚ),
          ((((scanFg counts h w).map (fun q => q.2)).sum : Nat) : ℚ) /
            (((scanFg counts h w).length : Nat) : ℚ)) := by
  have hcm_len : (colMajor w h).length = w * h := colMajor_length w h
  have hcl := centroidLoop_spec counts (colMajor w h) ⟨0, counts.getD 0 0, 0⟩ 0 0 0
  rw [hcm_len] at hcl
  simp only [Nat.zero_add] at hcl
  rw [calculateCentroid]
  rw [show normCounts (.arr counts) = counts from rfl]
  rw [if_neg (by simpa [List.isEmpty_iff] using hne)]
  rw [hcl]
  by_cases h0 : (scanFg counts h w).length = 0
  · rw [if_pos h0]
    rw [show (fgPixels ((colMajor w h).zip
        (scanVals counts ⟨0, counts.getD 0 0, 0⟩ (w * h)))).length =
        (scanFg counts h w).length from rfl, if_pos h0]
  · rw [if_neg h0]
    rw [show (fgPixels ((colMajor w h).zip
        (scanVals counts ⟨0, counts.getD 0 0, 0⟩ (w * h)))).length =
        (scanFg counts h w).length from rfl, if_neg h0]
    rfl

/-- C2 (amended): on an undershooting counts array the rasterizer stops
consuming at end-of-array, and every pixel whose column-major scan position
is at or past the total run sum is filled with the parity of the LAST run
index: fully transparent when `counts.length` is odd, foreground-colored
(alpha 210) when `counts.length` is even. -/
theorem c2_undershoot (counts : List Int) (h w : Nat) (color : Nat × Nat × Nat)
    (hne : counts ≠ []) (hnn : ∀ c ∈ counts, 0 ≤ c)
    (x y : Nat) (hx : x < w) (hy : y < h)
    (hpos : (counts.map Int.toNat).sum ≤ x * h + y) :
    ∃ data, decodeRleToCanvas ⟨.arr counts, (h, w)⟩ color = some data ∧
      data (4 * (y * w + x) + 3) = if (counts.length - 1) % 2 = 1 then 210 else 0 :=
  ⟨_, decodeRle_arr_some counts h w color hne,
    raster_tail_frozen counts h w color hne hnn x y hx hy hpos⟩

theorem c2_undershoot_witness :
    ∃ data, decodeRleToCanvas ⟨.arr [2, 1, 0], (2, 2)⟩ (9, 9, 9) = some data ∧
      data (4 * (1 * 2 + 1) + 3) =
        if (([2, 1, 0] : List Int).length - 1) % 2 = 1 then 210 else 0 :=
  c2_undershoot [2, 1, 0] 2 2 (9, 9, 9) (by decide)
    (by intro c hc; fin_cases hc <;> decide) 1 1 (by decide) (by decide) (by decide)

/-- C2 counterexample: counts `[0, 1]` on a 2×1 grid has sum 1 < 2, yet the
pixel at column-major scan position 1 (row-major pixel 1, alpha byte 7) is
painted FOREGROUND (alpha 210), not left transparent: after the final run is
exhausted the loop keeps the last `currentValue`, which is 1. -/
theorem c2_counterexample :
    (([0, 1] : List Int).map Int.toNat).sum = 1 ∧ 1 < 2 * 1 ∧
    ((decodeRleToCanvas ⟨.arr [0, 1], (2, 1)⟩ (9, 9, 9)).map
      (fun data => data (4 * 1 + 3))).getD 0 = 210 := by
  decide

/-- C3: rasterizing a non-negative counts array whose sum is exactly `h*w`
and recounting foreground pixels (alpha byte 210) from the output buffer
yields the sum of the odd-indexed run lengths. -/
theorem c3_foreground_count (counts : List Int) (h w : Nat) (color : Nat × Nat × Nat)
    (hne : counts ≠ []) (hnn : ∀ c ∈ counts, 0 ≤ c)
    (hsum : (counts.map Int.toNat).sum = h * w) :
    ∃ data, decodeRleToCanvas ⟨.arr counts, (h, w)⟩ color = some data ∧
      foregroundCount data h w = sumOdd 0 counts :=
  ⟨_, decodeRle_arr_some counts h w color hne,
    foregroundCount_raster counts h w color hne hnn hsum⟩

theorem c3_foreground_count_witness :
    ∃ data, decodeRleToCanvas ⟨.arr [1, 3], (2, 2)⟩ (1, 2, 3) = some data ∧
      foregroundCount data 2 2 = sumOdd 0 [1, 3] :=
  c3_foreground_count [1, 3] 2 2 (1, 2, 3) (by decide)
    (by intro c hc; fin_cases hc <;> decide) (by decide)


theorem c4_centroid_refinement_witness :
    calculateCentroid ⟨.arr [1, 3], (2, 2)⟩ =
      bitmapCentroid ⟨.arr [1, 3], (2, 2)⟩ (1, 2, 3) :=
  c4_centroid_refinement [1, 3] 2 2 (1, 2, 3)
    (by intro c hc; fin_cases hc <;> decide) (by decide)

/-- C9: empty-counts annotations yield no mask and no centroid; a single
run covering the whole grid yields a buffer with zero foreground pixels
and no centroid; in general the centroid is `none` exactly when the counts
are empty or the foreground count is zero, and otherwise is the arithmetic
mean of the foreground pixel coordinates. -/
theorem c9_zero_mask (h w : Nat) (color : Nat × Nat × Nat) :
    (decodeRleToCanvas ⟨.arr [], (h, w)⟩ color = none ∧
      calculateCentroid ⟨.arr [], (h, w)⟩ = none) ∧
    (∃ data, decodeRleToCanvas ⟨.arr [((h * w : Nat) : Int)], (h, w)⟩ color = some data ∧
      foregroundCount data h w = 0) ∧
    calculateCentroid ⟨.arr [((h * w : Nat) : Int)], (h, w)⟩ = none ∧
    (∀ counts : List Int, counts ≠ [] →
      (calculateCentroid ⟨.arr counts, (h, w)⟩ = none ↔ (scanFg counts h w).length = 0) ∧
      ((scanFg counts h w).length ≠ 0 →
        calculateCentroid ⟨.arr counts, (h, w)⟩ =
          some (((((scanFg counts h w).map (fun q => q.1)).sum : Nat) : ℚ) /
              (((scanFg counts h w).length : Nat) : ℚ),
            ((((scanFg counts h w).map (fun q => q.2)).sum : Nat) : ℚ) /
              (((scanFg counts h w).length : Nat) : ℚ)))) := by
  refine ⟨⟨rfl, rfl⟩, ?_, ?_, ?_⟩
  · refine ⟨_, decodeRle_arr_some _ h w color (by simp), ?_⟩
    have hfc := foregroundCount_raster [((h * w : Nat) : Int)] h w color (by simp)
      (by intro c hc; simp at hc; subst hc; exact Int.natCast_nonneg _)
      (by
        simp only [List.map_cons, List.map_nil, List.sum_cons, List.sum_nil,
          Nat.add_zero, ← Nat.cast_mul, Int.toNat_natCast])
    rw [hfc]
    rfl
  · rw [calculateCentroid_char _ h w (by simp)]
    rw [if_pos ?z]
    case z =>
      rw [scanFg]
      rw [show ([((h * w : Nat) : Int)] : List Int).getD 0 0 = ((h * w : Nat) : Int)
        from rfl]
      rw [scan_last [((h * w : Nat) : Int)] (w * h) 0 (h * w) 0 (by simp)]
      rw [fgPixels_zip_replicate_zero]
      rfl
  · intro counts hne
    constructor
    · rw [calculateCentroid_char counts h w hne]
      by_cases h0 : (scanFg counts h w).length = 0
      · rw [if_pos h0]
        simp [h0]
      · rw [if_neg h0]
        simp [h0]
    · intro hlen0
      rw [calculateCentroid_char counts h w hne, if_neg hlen0]

theorem c9_zero_mask_witness :
    calculateCentroid ⟨.arr [(4 : Int)], (2, 2)⟩ = none ∧
    calculateCentroid ⟨.arr [], (2, 2)⟩ = none :=
  ⟨(c9_zero_mask 2 2 (9, 9, 9)).2.2.1, (c9_zero_mask 2 2 (9, 9, 9)).1.2⟩


/-! ## Annotation matcher -/

def isSpace (c : Char) : Bool := c == ' ' || c == '\t' || c == '\n' || c == '\r'

def trimChars (s : List Char) : List Char :=
  ((s.dropWhile isSpace).reverse.dropWhile isSpace).reverse

def isSep (c : Char) : Bool := c == '/' || c == '\\'

def splitSeps : List Char → List (List Char)
  | [] => [[]]
  | c :: rest =>
      match splitSeps rest with
      | [] => [[]]
      | g :: gs => if isSep c then [] :: g :: gs else (c :: g) :: gs

def getBasename (path : List Char) : List Char :=
  let parts := splitSeps path
  let last := parts.getLast?.getD []
  trimChars (if last.isEmpty then path else last)

def lastDotIdx (s : List Char) : Int :=
  match s.reverse.indexOf? '.' with
  | some j => (s.length : Int) - 1 - (j : Int)
  | none => -1

def stripExt (s : List Char) : List Char :=
  let t := s.take (lastDotIdx s).toNat
  if t.isEmpty then s else t

def toLowerChars (s : List Char) : List Char := s.map Char.toLower

structure COCOImage where
  id : Int
  file_name : List Char
  deriving Repr, DecidableEq

deriving instance DecidableEq for Except

def findMatchedImage (images : List COCOImage) (fileName : List Char) :
    Option COCOImage :=
  let uploadedBasename := trimChars fileName
  let uploadedNameNoExt := stripExt uploadedBasename
  images.find? (fun img =>
    toLowerChars (stripExt (getBasename img.file_name)) ==
      toLowerChars uploadedNameNoExt)

def handleImageUpload (images : List COCOImage) (fileName : List Char) :
    Except (List Char × List (List Char)) Int :=
  match findMatchedImage images fileName with
  | some img => .ok img.id
  | none =>
      .error (trimChars fileName, (images.take 3).map (fun i => getBasename i.file_name))


theorem find?_eq_some_split {α : Type} (p : α → Bool) (l : List α) (a : α) :
    l.find? p = some a ↔
      ∃ pre post, l = pre ++ a :: post ∧ p a = true ∧ ∀ x ∈ pre, p x = false := by
  induction l with
  | nil => simp
  | cons b bs ih =>
      by_cases hb : p b
      · rw [List.find?_cons_of_pos _ hb]
        constructor
        · intro h
          injection h with h
          subst h
          exact ⟨[], bs, rfl, hb, by simp⟩
        · rintro ⟨pre, post, heq, hpa, hall⟩
          cases pre with
          | nil =>
              simp only [List.nil_append, List.cons.injEq] at heq
              rw [heq.1]
          | cons c cs =>
              simp only [List.cons_append, List.cons.injEq] at heq
              have hc := hall c (by simp)
              rw [← heq.1] at hc
              rw [hb] at hc
              cases hc
      · rw [List.find?_cons_of_neg _ hb, ih]
        constructor
        · rintro ⟨pre, post, heq, hpa, hall⟩
          refine ⟨b :: pre, post, by rw [heq]; rfl, hpa, ?_⟩
          intro x hx
          rcases List.mem_cons.mp hx with rfl | hx2
          · exact (Bool.not_eq_true (p x)).mp hb
          · exact hall x hx2
        · rintro ⟨pre, post, heq, hpa, hall⟩
          cases pre with
          | nil =>
              simp only [List.nil_append, List.cons.injEq] at heq
              rw [← heq.1] at hpa
              rw [hpa] at hb
              cases hb rfl
          | cons c cs =>
              simp only [List.cons_append, List.cons.injEq] at heq
              exact ⟨cs, post, heq.2, hpa, fun x hx => hall x (by simp [hx])⟩


/-- Claimed extension-stripping rule, following the claim's words literally:
the substring before the last '.', or the whole string when there is no '.'
at all. -/
def claimedStripExt (s : List Char) : List Char :=
  if lastDotIdx s < 0 then s else s.take (lastDotIdx s).toNat

/-- C6 (amended): `findMatchedImage` returns the first image (document
order) whose base name (last path segment, or the whole name when that
segment is empty), trimmed, extension-stripped with the `x || basename`
fallback (so leading-dot names keep their whole name), equals the
uploaded name processed the same way, case-insensitively; otherwise the
upload handler fails with a not-found error listing up to 3 base names. -/
theorem c6_matcher (images : List COCOImage) (fileName : List Char) :
    (∀ img, findMatchedImage images fileName = some img ↔
      ∃ pre post, images = pre ++ img :: post ∧
        toLowerChars (stripExt (getBasename img.file_name)) =
          toLowerChars (stripExt (trimChars fileName)) ∧
        ∀ x ∈ pre, toLowerChars (stripExt (getBasename x.file_name)) ≠
          toLowerChars (stripExt (trimChars fileName))) ∧
    (∀ img, findMatchedImage images fileName = some img →
      handleImageUpload images fileName = .ok img.id) ∧
    (findMatchedImage images fileName = none ↔
      ∀ img ∈ images, toLowerChars (stripExt (getBasename img.file_name)) ≠
        toLowerChars (stripExt (trimChars fileName))) ∧
    (findMatchedImage images fileName = none →
      handleImageUpload images fileName =
        .error (trimChars fileName,
          (images.take 3).map (fun i => getBasename i.file_name))) := by
  refine ⟨?first, ?ok, ?none, ?err⟩
  case first =>
    intro img
    rw [findMatchedImage, find?_eq_some_split]
    constructor
    · rintro ⟨pre, post, heq, hpa, hall⟩
      refine ⟨pre, post, heq, by simpa using hpa, ?_⟩
      intro x hx
      have := hall x hx
      simpa using this
    · rintro ⟨pre, post, heq, hpa, hall⟩
      refine ⟨pre, post, heq, by simpa using hpa, ?_⟩
      intro x hx
      have := hall x hx
      simpa using this
  case ok =>
    intro img h
    simp [handleImageUpload, h]
  case none =>
    rw [findMatchedImage, List.find?_eq_none]
    constructor
    · intro hall img hmem
      have := hall img hmem
      simpa using this
    · intro hall img hmem
      have := hall img hmem
      simpa using this
  case err =>
    intro h
    simp [handleImageUpload, h]

/-- Witness for C6 (amended) at the specification's own example: record
"CT/brain/scan_001.png" matches upload "scan_001.jpg" and the id is
returned; a non-matching upload produces the not-found error listing the
example basename. -/
theorem c6_matcher_witness :
    findMatchedImage [⟨42, "CT/brain/scan_001.png".toList⟩] "scan_001.jpg".toList =
      some ⟨42, "CT/brain/scan_001.png".toList⟩ ∧
    handleImageUpload [⟨42, "CT/brain/scan_001.png".toList⟩] "scan_001.jpg".toList =
      .ok 42 ∧
    handleImageUpload [⟨42, "CT/brain/scan_001.png".toList⟩] "scan_002.jpg".toList =
      .error ("scan_002.jpg".toList, ["scan_001.png".toList]) := by
  have h1 := (c6_matcher [⟨42, "CT/brain/scan_001.png".toList⟩] "scan_001.jpg".toList).1
    ⟨42, "CT/brain/scan_001.png".toList⟩
  have hsome : findMatchedImage [⟨42, "CT/brain/scan_001.png".toList⟩]
      "scan_001.jpg".toList = some ⟨42, "CT/brain/scan_001.png".toList⟩ :=
    h1.mpr ⟨[], [], rfl, by decide, by simp⟩
  have h2 := (c6_matcher [⟨42, "CT/brain/scan_001.png".toList⟩] "scan_001.jpg".toList).2.1
    ⟨42, "CT/brain/scan_001.png".toList⟩ hsome
  have hnone : findMatchedImage [⟨42, "CT/brain/scan_001.png".toList⟩]
      "scan_002.jpg".toList = none :=
    ((c6_matcher [⟨42, "CT/brain/scan_001.png".toList⟩] "scan_002.jpg".toList).2.2.1).mpr
      (by intro img hm; fin_cases hm; decide)
  have h3 := (c6_matcher [⟨42, "CT/brain/scan_001.png".toList⟩] "scan_002.jpg".toList).2.2.2
    hnone
  exact ⟨hsome, h2, by rw [h3]; decide⟩

/-- C6 counterexample: for a hidden-file style name the code's stripping
differs from the claim's rule.  Per the claim, ".png" and ".jpg" both strip
to the empty name (substring before the last dot), so the upload ".jpg"
should match the record ".png"; the code's `|| basename` fallback keeps the
whole name when the part before the dot is empty, so the matcher returns
not-found. -/
theorem c6_counterexample :
    claimedStripExt ".png".toList = [] ∧
    claimedStripExt ".jpg".toList = [] ∧
    toLowerChars (claimedStripExt (getBasename ".png".toList)) =
      toLowerChars (claimedStripExt (trimChars ".jpg".toList)) ∧
    findMatchedImage [⟨7, ".png".toList⟩] ".jpg".toList = none ∧
    handleImageUpload [⟨7, ".png".toList⟩] ".jpg".toList =
      .error (".jpg".toList, [".png".toList]) := by
  decide

/-! ## Permissive id equality (src/App.tsx currentAnnotations) -/

inductive JSVal where
  | num (n : Int)
  | str (s : List Char)
  deriving Repr, DecidableEq

def parseDigits (cs : List Char) : Option Nat :=
  if cs.isEmpty then none
  else if cs.all (fun c => c.isDigit) then
    some (cs.foldl (fun acc c => acc * 10 + (c.toNat - 48)) 0)
  else none

/-- JS `ToNumber` on a string, modelled for the decimal integer literals the
permissive id comparison concerns: optional sign, decimal digits, surrounding
whitespace; the empty (trimmed) string converts to 0; anything else is NaN
(`none`). -/
def toNumber (s : List Char) : Option Int :=
  let t := trimChars s
  if t.isEmpty then some 0
  else
    match t with
    | '-' :: rest => (parseDigits rest).map (fun n => -(n : Int))
    | '+' :: rest => (parseDigits rest).map (fun n => (n : Int))
    | _ => (parseDigits t).map (fun n => (n : Int))

/-- JS loose equality `==` between the id values that occur here: numbers
compare numerically, strings compare as strings, and a number compared to a
string converts the string with `ToNumber` (NaN compares false). -/
def jsLooseEq : JSVal → JSVal → Bool
  | .num a, .num b => a == b
  | .str a, .str b => a == b
  | .num a, .str b =>
      match toNumber b with
      | some v => a == v
      | none => false
  | .str a, .num b =>
      match toNumber a with
      | some v => v == b
      | none => false

structure COCOAnnotation where
  id : Int
  image_id : JSVal
  deriving Repr, DecidableEq

/-- Model of the `currentAnnotations` memo (src/App.tsx): no resolved target
id gives the empty list, otherwise the annotations are filtered with loose
equality `ann.image_id == targetId`. -/
def currentAnnotations (anns : List COCOAnnotation) (targetId : Option JSVal) :
    List COCOAnnotation :=
  match targetId with
  | none => []
  | some t => anns.filter (fun a => jsLooseEq a.image_id t)

/-- C7: the annotation filter uses JS loose equality `==`, so an
annotation is kept exactly when its `image_id` loosely equals the selected
image id; in particular the string "5" matches the number 5 in either
position. -/
theorem c7_loose_id_filter (anns : List COCOAnnotation) (t : JSVal) :
    (∀ a, a ∈ currentAnnotations anns (some t) ↔
      a ∈ anns ∧ jsLooseEq a.image_id t = true) ∧
    jsLooseEq (.str ['5']) (.num 5) = true ∧
    jsLooseEq (.num 5) (.str ['5']) = true ∧
    currentAnnotations anns none = [] := by
  refine ⟨?mem, by decide, by decide, rfl⟩
  case mem =>
    intro a
    rw [currentAnnotations, List.mem_filter]

theorem c7_loose_id_filter_witness :
    ⟨9, .str ['5']⟩ ∈ currentAnnotations [⟨9, JSVal.str ['5']⟩] (some (.num 5)) := by
  have h := (c7_loose_id_filter [⟨9, JSVal.str ['5']⟩] (.num 5)).1 ⟨9, .str ['5']⟩
  exact h.mpr ⟨by simp, by decide⟩

/-! ## Hierarchy indexer -/

inductive NodeKind where
  | folder
  | file
  deriving Repr, DecidableEq

/-- Model of the TS `TreeNode` (src/utils.ts): `name`, `type`, an optional
`children` mapping (an insertion-ordered association list models the JS
object), an optional image `data` back-reference, and the full `path`. -/
inductive TreeNode where
  | mk (name : List Char) (kind : NodeKind)
      (children : Option (List (List Char × TreeNode)))
      (data : Option COCOImage) (path : List Char)

def TreeNode.name : TreeNode → List Char
  | .mk n _ _ _ _ => n

def TreeNode.kind : TreeNode → NodeKind
  | .mk _ t _ _ _ => t

def TreeNode.children : TreeNode → Option (List (List Char × TreeNode))
  | .mk _ _ c _ _ => c

def TreeNode.data : TreeNode → Option COCOImage
  | .mk _ _ _ d _ => d

def TreeNode.path : TreeNode → List Char
  | .mk _ _ _ _ p => p

/-- JS object property write `children[part] = v`: an existing key keeps its
position, a new key is appended. -/
def setKey (l : List (List Char × TreeNode)) (k : List Char) (v : TreeNode) :
    List (List Char × TreeNode) :=
  match l with
  | [] => [(k, v)]
  | (k0, v0) :: rest => if k0 == k then (k, v) :: rest else (k0, v0) :: setKey rest k v

/-- JS object property read `children[part]`. -/
def lookupKey (l : List (List Char × TreeNode)) (k : List Char) : Option TreeNode :=
  match l with
  | [] => none
  | (k0, v0) :: rest => if k0 == k then some v0 else lookupKey rest k

/-- One image's insertion walk (the `parts.forEach` of `buildFileTree`): the
last segment writes a file node, earlier segments create-or-reuse a child and
descend (`if (!current.children) current.children = {}` is the `getD []`). -/
def insertParts (node : TreeNode) (parts : List (List Char)) (currentPath : List Char)
    (img : COCOImage) : TreeNode :=
  match parts with
  | [] => node
  | part :: rest =>
      let newPath := if currentPath.isEmpty then part else currentPath ++ '/' :: part
      let children := node.children.getD []
      if rest.isEmpty then
        TreeNode.mk node.name node.kind
          (some (setKey children part (TreeNode.mk part .file none (some img) newPath)))
          node.data node.path
      else
        let child :=
          match lookupKey children part with
          | some c => c
          | none => TreeNode.mk part .folder (some []) none newPath
        TreeNode.mk node.name node.kind
          (some (setKey children part (insertParts child rest newPath img)))
          node.data node.path

/-- Model of `buildFileTree` (src/utils.ts). -/
def buildFileTree (images : List COCOImage) : TreeNode :=
  images.foldl
    (fun root img => insertParts root (splitSeps img.file_name) [] img)
    (TreeNode.mk "root".toList .folder (some []) none [])

/-- UTF-16 code-unit three-way string comparison.  This models
`String.prototype.localeCompare` in its locale-independent reading (ECMA-262
allows a bitwise comparison; browser ICU collations may order mixed-case
names differently). -/
def lexCompareChars : List Char → List Char → Int
  | [], [] => 0
  | [], _ :: _ => -1
  | _ :: _, [] => 1
  | a :: as, b :: bs =>
      if a.toNat < b.toNat then -1
      else if b.toNat < a.toNat then 1
      else lexCompareChars as bs

/-- The sibling comparator of FileTree.tsx: folders sort before files, ties
within a kind break by name comparison of the entry keys. -/
def cmpEntries (a b : List Char × TreeNode) : Int :=
  if a.2.kind ≠ b.2.kind then (if a.2.kind = .folder then -1 else 1)
  else lexCompareChars a.1 b.1

/-- Stable insertion of `x` after all already-placed entries that compare
`≤ 0` against it. -/
def insertCmp (c : (List Char × TreeNode) → (List Char × TreeNode) → Int)
    (x : List Char × TreeNode) :
    List (List Char × TreeNode) → List (List Char × TreeNode)
  | [] => [x]
  | y :: ys => if c y x ≤ 0 then y :: insertCmp c x ys else x :: y :: ys

/-- Stable sort by a comparator; JS `Array.prototype.sort` is required to be
stable, so any stable algorithm with the same comparator produces the
displayed order. -/
def sortCmp (c : (List Char × TreeNode) → (List Char × TreeNode) → Int)
    (l : List (List Char × TreeNode)) : List (List Char × TreeNode) :=
  l.foldl (fun acc x => insertCmp c x acc) []

/-- The child entries of a node in the order FileTree.tsx renders them. -/
def displayChildren (node : TreeNode) : List (List Char × TreeNode) :=
  sortCmp cmpEntries (node.children.getD [])


theorem lexCompareChars_neg (a : List Char) :
    ∀ b, lexCompareChars a b = -lexCompareChars b a := by
  induction a with
  | nil =>
      intro b
      cases b with
      | nil => rfl
      | cons y ys => rfl
  | cons x xs ih =>
      intro b
      cases b with
      | nil => rfl
      | cons y ys =>
          show (if x.toNat < y.toNat then (-1 : Int)
            else if y.toNat < x.toNat then 1 else lexCompareChars xs ys) = _
          show _ = -(if y.toNat < x.toNat then (-1 : Int)
            else if x.toNat < y.toNat then 1 else lexCompareChars ys xs)
          rcases Nat.lt_trichotomy x.toNat y.toNat with hlt | heq | hgt
          · rw [if_pos hlt, if_neg (show ¬y.toNat < x.toNat from by omega), if_pos hlt]
          · simp only [if_neg (show ¬x.toNat < y.toNat from by omega),
              if_neg (show ¬y.toNat < x.toNat from by omega)]
            exact ih ys
          · rw [if_neg (show ¬x.toNat < y.toNat from by omega), if_pos hgt, if_pos hgt]
            norm_num

theorem lexCompareChars_le_trans (a : List Char) :
    ∀ b c, lexCompareChars a b ≤ 0 → lexCompareChars b c ≤ 0 →
      lexCompareChars a c ≤ 0 := by
  induction a with
  | nil =>
      intro b c _ _
      cases c with
      | nil => exact le_refl 0
      | cons z zs => exact by norm_num [lexCompareChars]
  | cons x xs ih =>
      intro b c hab hbc
      cases b with
      | nil => norm_num [lexCompareChars] at hab
      | cons y ys =>
          cases c with
          | nil => norm_num [lexCompareChars] at hbc
          | cons z zs =>
              rw [lexCompareChars] at hab hbc ⊢
              rcases Nat.lt_trichotomy x.toNat y.toNat with h1 | h1 | h1
              · rcases Nat.lt_trichotomy y.toNat z.toNat with h2 | h2 | h2
                · rw [if_pos (by omega)]
                  norm_num
                · rw [if_pos (by omega)]
                  norm_num
                · rw [if_neg (by omega), if_pos h2] at hbc
                  norm_num at hbc
              · rcases Nat.lt_trichotomy y.toNat z.toNat with h2 | h2 | h2
                · rw [if_pos (by omega)]
                  norm_num
                · rw [if_neg (by omega), if_neg (by omega)]
                  rw [if_neg (by omega), if_neg (by omega)] at hab
                  rw [if_neg (by omega), if_neg (by omega)] at hbc
                  exact ih ys zs hab hbc
                · rw [if_neg (by omega), if_pos h2] at hbc
                  norm_num at hbc
              · rw [if_neg (by omega), if_pos h1] at hab
                norm_num at hab

theorem cmpEntries_flip (x y : List Char × TreeNode) (h : 0 < cmpEntries y x) :
    cmpEntries x y ≤ 0 := by
  rw [cmpEntries] at h ⊢
  by_cases hk : y.2.kind = x.2.kind
  · rw [if_neg (fun hne => hne hk)] at h
    rw [if_neg (fun hne => hne hk.symm)]
    rw [lexCompareChars_neg] at h
    omega
  · rw [if_pos (by simpa using hk)] at h
    rw [if_pos (by simp; exact fun he => hk he.symm)]
    by_cases hy : y.2.kind = .folder
    · rw [if_pos hy] at h
      norm_num at h
    · rw [if_neg hy] at h
      have hx : x.2.kind = .folder := by
        cases hxk : x.2.kind
        · rfl
        · cases hyk : y.2.kind
          · exact absurd rfl (hyk ▸ hy)
          · exact absurd (hxk ▸ hyk ▸ rfl) hk
      rw [if_pos hx]
      norm_num

theorem cmpEntries_le_trans (x y z : List Char × TreeNode)
    (hxy : cmpEntries x y ≤ 0) (hyz : cmpEntries y z ≤ 0) : cmpEntries x z ≤ 0 := by
  have hrank : ∀ a b : List Char × TreeNode, cmpEntries a b ≤ 0 ↔
      ((a.2.kind = .folder ∧ b.2.kind = .file) ∨
        (a.2.kind = b.2.kind ∧ lexCompareChars a.1 b.1 ≤ 0)) := by
    intro a b
    rw [cmpEntries]
    by_cases hk : a.2.kind = b.2.kind
    · rw [if_neg (by simpa using hk)]
      constructor
      · intro hle
        exact Or.inr ⟨hk, hle⟩
      · rintro (⟨h1, h2⟩ | ⟨_, h2⟩)
        · rw [h1, h2] at hk
          cases hk
        · exact h2
    · rw [if_pos (by simpa using hk)]
      by_cases ha : a.2.kind = .folder
      · rw [if_pos ha]
        constructor
        · intro _
          refine Or.inl ⟨ha, ?_⟩
          cases hb : b.2.kind
          · rw [ha, hb] at hk
            cases hk rfl
          · rfl
        · intro _
          norm_num
      · rw [if_neg ha]
        constructor
        · intro hle
          norm_num at hle
        · rintro (⟨h1, _⟩ | ⟨h1, _⟩)
          · exact absurd h1 ha
          · exact absurd h1 hk
  rw [hrank] at hxy hyz ⊢
  rcases hxy with ⟨hx1, hx2⟩ | ⟨hx1, hx2⟩
  · rcases hyz with ⟨hy1, hy2⟩ | ⟨hy1, hy2⟩
    · rw [hx2] at hy1
      cases hy1
    · exact Or.inl ⟨hx1, hy1 ▸ hx2⟩
  · rcases hyz with ⟨hy1, hy2⟩ | ⟨hy1, hy2⟩
    · exact Or.inl ⟨hx1.trans hy1, hy2⟩
    · exact Or.inr ⟨hx1.trans hy1, lexCompareChars_le_trans _ _ _ hx2 hy2⟩

theorem mem_insertCmp (c : (List Char × TreeNode) → (List Char × TreeNode) → Int)
    (x a : List Char × TreeNode) :
    ∀ l, a ∈ insertCmp c x l ↔ a = x ∨ a ∈ l := by
  intro l
  induction l with
  | nil => simp [insertCmp]
  | cons y ys ih =>
      rw [insertCmp]
      by_cases hc : c y x ≤ 0
      · rw [if_pos hc]
        simp only [List.mem_cons, ih]
        tauto
      · rw [if_neg hc]
        simp only [List.mem_cons]

theorem perm_insertCmp (c : (List Char × TreeNode) → (List Char × TreeNode) → Int)
    (x : List Char × TreeNode) :
    ∀ l, (insertCmp c x l).Perm (x :: l) := by
  intro l
  induction l with
  | nil => simp [insertCmp]
  | cons y ys ih =>
      rw [insertCmp]
      by_cases hc : c y x ≤ 0
      · rw [if_pos hc]
        exact (ih.cons y).trans (List.Perm.swap x y ys)
      · rw [if_neg hc]


theorem pairwise_insertCmp (x : List Char × TreeNode) :
    ∀ l, l.Pairwise (fun a b => cmpEntries a b ≤ 0) →
      (insertCmp cmpEntries x l).Pairwise (fun a b => cmpEntries a b ≤ 0) := by
  intro l
  induction l with
  | nil => intro _; simp [insertCmp]
  | cons y ys ih =>
      intro hp
      rw [List.pairwise_cons] at hp
      rw [insertCmp]
      by_cases hc : cmpEntries y x ≤ 0
      · rw [if_pos hc]
        rw [List.pairwise_cons]
        constructor
        · intro a ha
          rcases (mem_insertCmp cmpEntries x a ys).mp ha with rfl | ha2
          · exact hc
          · exact hp.1 a ha2
        · exact ih hp.2
      · rw [if_neg hc]
        rw [List.pairwise_cons]
        have hxy : cmpEntries x y ≤ 0 := cmpEntries_flip x y (by omega)
        constructor
        · intro a ha
          rcases List.mem_cons.mp ha with rfl | ha2
          · exact hxy
          · exact cmpEntries_le_trans x y a hxy (hp.1 a ha2)
        · rw [List.pairwise_cons]
          exact ⟨hp.1, hp.2⟩

theorem pairwise_sortCmp (l : List (List Char × TreeNode)) :
    (sortCmp cmpEntries l).Pairwise (fun a b => cmpEntries a b ≤ 0) := by
  rw [sortCmp]
  have hgen : ∀ (xs acc : List (List Char × TreeNode)),
      acc.Pairwise (fun a b => cmpEntries a b ≤ 0) →
      (xs.foldl (fun acc x => insertCmp cmpEntries x acc) acc).Pairwise
        (fun a b => cmpEntries a b ≤ 0) := by
    intro xs
    induction xs with
    | nil => intro acc h; exact h
    | cons x xs ih =>
        intro acc h
        rw [List.foldl_cons]
        exact ih _ (pairwise_insertCmp x acc h)
  exact hgen l [] (by simp)

theorem perm_sortCmp (l : List (List Char × TreeNode)) :
    (sortCmp cmpEntries l).Perm l := by
  rw [sortCmp]
  have hgen : ∀ (xs acc : List (List Char × TreeNode)),
      (xs.foldl (fun acc x => insertCmp cmpEntries x acc) acc).Perm (acc ++ xs) := by
    intro xs
    induction xs with
    | nil => intro acc; simp
    | cons x xs ih =>
        intro acc
        rw [List.foldl_cons]
        refine (ih (insertCmp cmpEntries x acc)).trans ?_
        have h1 : (insertCmp cmpEntries x acc ++ xs).Perm ((x :: acc) ++ xs) :=
          (perm_insertCmp cmpEntries x acc).append_right xs
        refine h1.trans ?_
        rw [List.cons_append]
        exact List.perm_middle.symm
  simpa using hgen l []

/-- C8: displayed sibling ordering of FileTree.tsx.  The displayed children
are a permutation of the node's children in which every folder precedes
every file and, within the same kind, names come in non-decreasing
code-unit lexicographic order; on the specification's concrete example the
root shows exactly folders A then B and A shows files x.png then y.png. -/
theorem c8_sibling_order :
    (∀ node : TreeNode,
      (displayChildren node).Perm (node.children.getD []) ∧
      (displayChildren node).Pairwise (fun a b =>
        (a.2.kind = .file → b.2.kind = .file) ∧
        (a.2.kind = b.2.kind → lexCompareChars a.1 b.1 ≤ 0))) ∧
    (displayChildren (buildFileTree [⟨1, "A/x.png".toList⟩, ⟨2, "A/y.png".toList⟩,
        ⟨3, "B/z.png".toList⟩])).map (fun e => (e.1, e.2.kind)) =
      [("A".toList, .folder), ("B".toList, .folder)] ∧
    ((lookupKey ((buildFileTree [⟨1, "A/x.png".toList⟩, ⟨2, "A/y.png".toList⟩,
        ⟨3, "B/z.png".toList⟩]).children.getD []) "A".toList).map
      (fun nA => (displayChildren nA).map (fun e => (e.1, e.2.kind)))).getD [] =
      [("x.png".toList, .file), ("y.png".toList, .file)] := by
  refine ⟨?gen, by decide, by decide⟩
  case gen =>
    intro node
    refine ⟨perm_sortCmp _, ?_⟩
    refine (pairwise_sortCmp _).imp ?_
    intro a b hle
    rw [cmpEntries] at hle
    by_cases hk : a.2.kind = b.2.kind
    · rw [if_neg (fun hne => hne hk)] at hle
      exact ⟨fun hf => hk ▸ hf, fun _ => hle⟩
    · rw [if_pos (by simpa using hk)] at hle
      by_cases ha : a.2.kind = .folder
      · refine ⟨fun hf => ?_, fun heq => absurd heq hk⟩
        rw [ha] at hf
        cases hf
      · rw [if_neg ha] at hle
        norm_num at hle

theorem c8_sibling_order_witness :
    (displayChildren (buildFileTree [⟨1, "A/x.png".toList⟩, ⟨2, "A/y.png".toList⟩,
        ⟨3, "B/z.png".toList⟩])).Pairwise (fun a b =>
      (a.2.kind = .file → b.2.kind = .file) ∧
      (a.2.kind = b.2.kind → lexCompareChars a.1 b.1 ≤ 0)) :=
  (c8_sibling_order.1 (buildFileTree [⟨1, "A/x.png".toList⟩, ⟨2, "A/y.png".toList⟩,
    ⟨3, "B/z.png".toList⟩])).2


/-! ## Tree-shape invariant -/

/-- Walk a tree along path segments, through each node's children map. -/
def findNode : TreeNode → List (List Char) → Option TreeNode
  | t, [] => some t
  | t, k :: rest =>
      match lookupKey (t.children.getD []) k with
      | some c => findNode c rest
      | none => none

/-- The `currentPath` accumulation of `buildFileTree`:
`currentPath = currentPath ? currentPath + '/' + part : part` folded over the
segments. -/
def joinPath (cur : List Char) : List (List Char) → List Char
  | [] => cur
  | p :: rest => joinPath (if cur.isEmpty then p else cur ++ '/' :: p) rest

def segsOf (img : COCOImage) : List (List Char) := splitSeps img.file_name

/-- The file node `buildFileTree` writes for an image. -/
def fileNodeFor (img : COCOImage) : TreeNode :=
  TreeNode.mk ((segsOf img).getLastD []) .file none (some img)
    (joinPath [] (segsOf img))

theorem lookupKey_nil (k : List Char) : lookupKey [] k = none := rfl

theorem lookupKey_cons (k0 : List Char) (v0 : TreeNode)
    (rest : List (List Char × TreeNode)) (k : List Char) :
    lookupKey ((k0, v0) :: rest) k = if k0 == k then some v0 else lookupKey rest k := rfl

theorem setKey_cons (k0 : List Char) (v0 : TreeNode)
    (rest : List (List Char × TreeNode)) (k : List Char) (v : TreeNode) :
    setKey ((k0, v0) :: rest) k v =
      if k0 == k then (k, v) :: rest else (k0, v0) :: setKey rest k v := rfl

theorem lookupKey_setKey (k : List Char) (v : TreeNode) (k2 : List Char) :
    ∀ l, lookupKey (setKey l k v) k2 = if k = k2 then some v else lookupKey l k2 := by
  intro l
  induction l with
  | nil =>
      rw [show setKey [] k v = [(k, v)] from rfl, lookupKey_cons, lookupKey_nil]
      by_cases h : k = k2
      · simp [h]
      · simp [h]
  | cons e rest ih =>
      obtain ⟨k0, v0⟩ := e
      rw [setKey_cons]
      by_cases h0 : (k0 == k) = true
      · rw [if_pos h0]
        have hk : k0 = k := by simpa using h0
        subst hk
        rw [lookupKey_cons, lookupKey_cons]
        by_cases h : k0 = k2
        · simp [h]
        · simp [h]
      · rw [if_neg h0, lookupKey_cons, lookupKey_cons, ih]
        have hkk : k0 ≠ k := by simpa using h0
        by_cases h2 : k0 = k2
        · have hne : k ≠ k2 := fun hkk2 => hkk (hkk2.trans h2.symm).symm
          simp [h2, hne]
        · simp [h2]


theorem splitSeps_ne_nil (s : List Char) : splitSeps s ≠ [] := by
  induction s with
  | nil => simp [splitSeps]
  | cons c rest ih =>
      rw [splitSeps]
      cases h : splitSeps rest with
      | nil => exact absurd h ih
      | cons g gs =>
          by_cases hc : isSep c = true
          · simp [hc]
          · simp [hc]

theorem segsOf_ne_nil (img : COCOImage) : segsOf img ≠ [] := splitSeps_ne_nil _

/-- The leaf written by `insertParts` for a non-empty segment list. -/
def leafFor (parts : List (List Char)) (cur : List Char) (img : COCOImage) : TreeNode :=
  TreeNode.mk (parts.getLastD []) .file none (some img) (joinPath cur parts)

theorem fileNodeFor_eq_leafFor (img : COCOImage) :
    fileNodeFor img = leafFor (segsOf img) [] img := rfl

theorem insertParts_single (t : TreeNode) (p : List Char) (cur : List Char)
    (img : COCOImage) :
    insertParts t [p] cur img =
      TreeNode.mk t.name t.kind
        (some (setKey (t.children.getD []) p
          (TreeNode.mk p .file none (some img)
            (if cur.isEmpty then p else cur ++ '/' :: p))))
        t.data t.path := rfl

theorem insertParts_cons₂_eq (t : TreeNode) (p r : List Char) (rs : List (List Char))
    (cur : List Char) (img : COCOImage) :
    insertParts t (p :: r :: rs) cur img =
      TreeNode.mk t.name t.kind
        (some (setKey (t.children.getD []) p
          (insertParts
            (match lookupKey (t.children.getD []) p with
             | some c => c
             | none =>
                 TreeNode.mk p .folder (some []) none
                   (if cur.isEmpty then p else cur ++ '/' :: p))
            (r :: rs) (if cur.isEmpty then p else cur ++ '/' :: p) img)))
        t.data t.path := rfl

theorem insertParts_cons₂_found (t : TreeNode) (p r : List Char)
    (rs : List (List Char)) (cur : List Char) (img : COCOImage) (c : TreeNode)
    (hc : lookupKey (t.children.getD []) p = some c) :
    insertParts t (p :: r :: rs) cur img =
      TreeNode.mk t.name t.kind
        (some (setKey (t.children.getD []) p
          (insertParts c (r :: rs) (if cur.isEmpty then p else cur ++ '/' :: p) img)))
        t.data t.path := by
  rw [insertParts_cons₂_eq, hc]

theorem insertParts_cons₂_fresh (t : TreeNode) (p r : List Char)
    (rs : List (List Char)) (cur : List Char) (img : COCOImage)
    (hc : lookupKey (t.children.getD []) p = none) :
    insertParts t (p :: r :: rs) cur img =
      TreeNode.mk t.name t.kind
        (some (setKey (t.children.getD []) p
          (insertParts
            (TreeNode.mk p .folder (some []) none
              (if cur.isEmpty then p else cur ++ '/' :: p))
            (r :: rs) (if cur.isEmpty then p else cur ++ '/' :: p) img)))
        t.data t.path := by
  rw [insertParts_cons₂_eq, hc]

theorem findNode_nil (t : TreeNode) : findNode t [] = some t := rfl

theorem findNode_cons_eq (t : TreeNode) (k : List Char) (rest : List (List Char)) :
    findNode t (k :: rest) =
      match lookupKey (t.children.getD []) k with
      | some c => findNode c rest
      | none => none := rfl

theorem findNode_cons_found (t : TreeNode) (k : List Char) (rest : List (List Char))
    (c : TreeNode) (hc : lookupKey (t.children.getD []) k = some c) :
    findNode t (k :: rest) = findNode c rest := by
  rw [findNode_cons_eq, hc]

theorem findNode_cons_none (t : TreeNode) (k : List Char) (rest : List (List Char))
    (hc : lookupKey (t.children.getD []) k = none) :
    findNode t (k :: rest) = none := by
  rw [findNode_cons_eq, hc]


theorem findNode_fresh (p np : List Char) (k : List Char) (rest : List (List Char)) :
    findNode (TreeNode.mk p .folder (some []) none np) (k :: rest) = none := rfl

theorem findNode_leaf (nm np : List Char) (img : COCOImage) (k : List Char)
    (rest : List (List Char)) :
    findNode (TreeNode.mk nm .file none (some img) np) (k :: rest) = none := rfl


theorem findNode_insert_diverge (img : COCOImage) :
    ∀ (parts q : List (List Char)) (t : TreeNode) (cur : List Char),
      ¬(q <+: parts) → ¬(parts <+: q) →
      findNode (insertParts t parts cur img) q = findNode t q := by
  intro parts
  induction parts with
  | nil => intro q t cur h1 h2; exact absurd List.nil_prefix h2
  | cons p rest ih =>
      intro q t cur h1 h2
      cases q with
      | nil => exact absurd List.nil_prefix h1
      | cons q0 qrest =>
          by_cases hq : q0 = p
          · subst hq
            have h1s : ¬(qrest <+: rest) :=
              fun hp => h1 (List.cons_prefix_cons.mpr ⟨rfl, hp⟩)
            have h2s : ¬(rest <+: qrest) :=
              fun hp => h2 (List.cons_prefix_cons.mpr ⟨rfl, hp⟩)
            cases rest with
            | nil => exact absurd List.nil_prefix h2s
            | cons r rs =>
                cases hc : lookupKey (t.children.getD []) q0 with
                | some c =>
                    rw [insertParts_cons₂_found t q0 r rs cur img c hc]
                    rw [findNode_cons_found _ q0 qrest
                      (insertParts c (r :: rs)
                        (if cur.isEmpty then q0 else cur ++ '/' :: q0) img)
                      (by
                        simp only [TreeNode.children, Option.getD_some]
                        rw [lookupKey_setKey]
                        simp)]
                    rw [ih qrest c _ h1s h2s]
                    rw [findNode_cons_found t q0 qrest c hc]
                | none =>
                    rw [insertParts_cons₂_fresh t q0 r rs cur img hc]
                    rw [findNode_cons_found _ q0 qrest
                      (insertParts
                        (TreeNode.mk q0 .folder (some []) none
                          (if cur.isEmpty then q0 else cur ++ '/' :: q0))
                        (r :: rs)
                        (if cur.isEmpty then q0 else cur ++ '/' :: q0) img)
                      (by
                        simp only [TreeNode.children, Option.getD_some]
                        rw [lookupKey_setKey]
                        simp)]
                    rw [ih qrest _ _ h1s h2s]
                    cases qrest with
                    | nil => exact absurd List.nil_prefix h1s
                    | cons q1 q2 =>
                        rw [findNode_fresh, findNode_cons_none t q0 _ hc]
          · cases rest with
            | nil =>
                rw [insertParts_single, findNode_cons_eq _ q0 qrest,
                  findNode_cons_eq t q0 qrest]
                simp only [TreeNode.children, Option.getD_some]
                rw [lookupKey_setKey]
                rw [if_neg (fun he => hq he.symm)]
            | cons r rs =>
                rw [insertParts_cons₂_eq, findNode_cons_eq _ q0 qrest,
                  findNode_cons_eq t q0 qrest]
                simp only [TreeNode.children, Option.getD_some]
                rw [lookupKey_setKey]
                rw [if_neg (fun he => hq he.symm)]


theorem findNode_insert_self (img : COCOImage) :
    ∀ (parts : List (List Char)) (t : TreeNode) (cur : List Char), parts ≠ [] →
      findNode (insertParts t parts cur img) parts = some (leafFor parts cur img) := by
  intro parts
  induction parts with
  | nil => intro t cur h; exact absurd rfl h
  | cons p rest ih =>
      intro t cur _
      cases rest with
      | nil =>
          rw [insertParts_single]
          rw [findNode_cons_found _ p []
            (TreeNode.mk p .file none (some img)
              (if cur.isEmpty then p else cur ++ '/' :: p))
            (by
              simp only [TreeNode.children, Option.getD_some]
              rw [lookupKey_setKey]
              simp)]
          rw [findNode_nil]
          rfl
      | cons r rs =>
          cases hc : lookupKey (t.children.getD []) p with
          | some c =>
              rw [insertParts_cons₂_found t p r rs cur img c hc]
              rw [findNode_cons_found _ p (r :: rs)
                (insertParts c (r :: rs)
                  (if cur.isEmpty then p else cur ++ '/' :: p) img)
                (by
                  simp only [TreeNode.children, Option.getD_some]
                  rw [lookupKey_setKey]
                  simp)]
              rw [ih c _ (by simp)]
              rfl
          | none =>
              rw [insertParts_cons₂_fresh t p r rs cur img hc]
              rw [findNode_cons_found _ p (r :: rs)
                (insertParts
                  (TreeNode.mk p .folder (some []) none
                    (if cur.isEmpty then p else cur ++ '/' :: p))
                  (r :: rs)
                  (if cur.isEmpty then p else cur ++ '/' :: p) img)
                (by
                  simp only [TreeNode.children, Option.getD_some]
                  rw [lookupKey_setKey]
                  simp)]
              rw [ih _ _ (by simp)]
              rfl


theorem findNode_insert_beyond (img : COCOImage) :
    ∀ (parts ex : List (List Char)) (t : TreeNode) (cur : List Char),
      parts ≠ [] → ex ≠ [] →
      findNode (insertParts t parts cur img) (parts ++ ex) = none := by
  intro parts
  induction parts with
  | nil => intro ex t cur h _; exact absurd rfl h
  | cons p rest ih =>
      intro ex t cur _ hex
      cases rest with
      | nil =>
          rw [insertParts_single]
          rw [List.singleton_append]
          rw [findNode_cons_found _ p ex
            (TreeNode.mk p .file none (some img)
              (if cur.isEmpty then p else cur ++ '/' :: p))
            (by
              simp only [TreeNode.children, Option.getD_some]
              rw [lookupKey_setKey]
              simp)]
          cases ex with
          | nil => exact absurd rfl hex
          | cons e es => rw [findNode_leaf]
      | cons r rs =>
          rw [List.cons_append]
          cases hc : lookupKey (t.children.getD []) p with
          | some c =>
              rw [insertParts_cons₂_found t p r rs cur img c hc]
              rw [findNode_cons_found _ p ((r :: rs) ++ ex)
                (insertParts c (r :: rs)
                  (if cur.isEmpty then p else cur ++ '/' :: p) img)
                (by
                  simp only [TreeNode.children, Option.getD_some]
                  rw [lookupKey_setKey]
                  simp)]
              exact ih ex c _ (by simp) hex
          | none =>
              rw [insertParts_cons₂_fresh t p r rs cur img hc]
              rw [findNode_cons_found _ p ((r :: rs) ++ ex)
                (insertParts
                  (TreeNode.mk p .folder (some []) none
                    (if cur.isEmpty then p else cur ++ '/' :: p))
                  (r :: rs)
                  (if cur.isEmpty then p else cur ++ '/' :: p) img)
                (by
                  simp only [TreeNode.children, Option.getD_some]
                  rw [lookupKey_setKey]
                  simp)]
              exact ih ex _ _ (by simp) hex


theorem findNode_insert_prefix (img : COCOImage) :
    ∀ (parts q : List (List Char)) (t : TreeNode) (cur : List Char),
      q <+: parts → q ≠ parts →
      ∃ u, findNode (insertParts t parts cur img) q = some u ∧
        ((∃ u₀, findNode t q = some u₀ ∧ u.kind = u₀.kind ∧ u.data = u₀.data) ∨
         (u.kind = NodeKind.folder ∧ u.data = none)) := by
  intro parts
  induction parts with
  | nil =>
      intro q t cur hpre hne
      exact absurd (List.prefix_nil.mp hpre) hne
  | cons p rest ih =>
      intro q t cur hpre hne
      cases q with
      | nil =>
          refine ⟨insertParts t (p :: rest) cur img, findNode_nil _, Or.inl ⟨t, findNode_nil t, ?_, ?_⟩⟩
          · cases rest with
            | nil => rw [insertParts_single]; rfl
            | cons r rs => rw [insertParts_cons₂_eq]; rfl
          · cases rest with
            | nil => rw [insertParts_single]; rfl
            | cons r rs => rw [insertParts_cons₂_eq]; rfl
      | cons q0 qrest =>
          obtain ⟨hq0, hpre'⟩ := List.cons_prefix_cons.mp hpre
          subst hq0
          cases rest with
          | nil =>
              rw [List.prefix_nil.mp hpre'] at hne
              exact absurd rfl hne
          | cons r rs =>
              have hne' : qrest ≠ r :: rs := fun h => hne (by rw [h])
              cases hc : lookupKey (t.children.getD []) q0 with
              | some c =>
                  rw [insertParts_cons₂_found t q0 r rs cur img c hc]
                  rw [findNode_cons_found _ q0 qrest
                    (insertParts c (r :: rs)
                      (if cur.isEmpty then q0 else cur ++ '/' :: q0) img)
                    (by
                      simp only [TreeNode.children, Option.getD_some]
                      rw [lookupKey_setKey]
                      simp)]
                  obtain ⟨u, hu, hbranch⟩ := ih qrest c _ hpre' hne'
                  refine ⟨u, hu, ?_⟩
                  rcases hbranch with ⟨u₀, h₀, hk, hd⟩ | hf
                  · exact Or.inl ⟨u₀, by rw [findNode_cons_found t q0 qrest c hc]; exact h₀, hk, hd⟩
                  · exact Or.inr hf
              | none =>
                  rw [insertParts_cons₂_fresh t q0 r rs cur img hc]
                  rw [findNode_cons_found _ q0 qrest
                    (insertParts
                      (TreeNode.mk q0 .folder (some []) none
                        (if cur.isEmpty then q0 else cur ++ '/' :: q0))
                      (r :: rs)
                      (if cur.isEmpty then q0 else cur ++ '/' :: q0) img)
                    (by
                      simp only [TreeNode.children, Option.getD_some]
                      rw [lookupKey_setKey]
                      simp)]
                  obtain ⟨u, hu, hbranch⟩ := ih qrest _ _ hpre' hne'
                  refine ⟨u, hu, ?_⟩
                  rcases hbranch with ⟨u₀, h₀, hk, hd⟩ | hf
                  · cases qrest with
                    | nil =>
                        rw [findNode_nil] at h₀
                        have hu₀ : u₀ = TreeNode.mk q0 .folder (some []) none
                            (if cur.isEmpty then q0 else cur ++ '/' :: q0) :=
                          (Option.some_injective _ h₀).symm
                        subst hu₀
                        exact Or.inr ⟨hk, hd⟩
                    | cons q1 q2 =>
                        rw [findNode_fresh] at h₀
                        exact absurd h₀ (by simp)
                  · exact Or.inr hf


/-- Path-independence hypothesis between two images: neither list of path
segments is a prefix of the other (this also forces the segment lists to
be distinct). -/
def Compat (a b : COCOImage) : Prop :=
  ¬(segsOf a <+: segsOf b) ∧ ¬(segsOf b <+: segsOf a)

/-- Invariant of the tree built from the processed images `done`. -/
def TreeInv (root : TreeNode) (done : List COCOImage) : Prop :=
  (∀ img ∈ done, findNode root (segsOf img) = some (fileNodeFor img)) ∧
  (∀ q u, findNode root q = some u → ∀ img, u.data = some img →
      img ∈ done ∧ q = segsOf img) ∧
  (∀ q u, findNode root q = some u → u.kind = NodeKind.file →
      ∃ img ∈ done, q = segsOf img) ∧
  (∀ img ∈ done, ∀ i, 0 < i → i < (segsOf img).length →
      ∃ u, findNode root ((segsOf img).take i) = some u ∧ u.kind = NodeKind.folder)

theorem treeInv_insert (root : TreeNode) (done : List COCOImage) (img : COCOImage)
    (hInv : TreeInv root done) (hcomp : ∀ a ∈ done, Compat a img) :
    TreeInv (insertParts root (segsOf img) [] img) (done ++ [img]) := by
  obtain ⟨I1, I2, I3, I4⟩ := hInv
  have hne : segsOf img ≠ [] := segsOf_ne_nil img
  refine ⟨?_, ?_, ?_, ?_⟩
  · intro o ho
    rcases List.mem_append.mp ho with ho | ho
    · have hcc := hcomp o ho
      rw [findNode_insert_diverge img (segsOf img) (segsOf o) root [] hcc.1 hcc.2]
      exact I1 o ho
    · have ho' : o = img := by simpa using ho
      subst ho'
      rw [fileNodeFor_eq_leafFor]
      exact findNode_insert_self o (segsOf o) root [] hne
  · intro q u hfind o hdata
    by_cases hqp : q = segsOf img
    · subst hqp
      rw [findNode_insert_self img _ root [] hne] at hfind
      have hu : u = leafFor (segsOf img) [] img := (Option.some_injective _ hfind).symm
      have ho : o = img := by
        have := hdata
        rw [hu] at this
        simpa [leafFor, TreeNode.data] using this.symm
      subst ho
      exact ⟨List.mem_append_right _ (by simp), rfl⟩
    · by_cases hq1 : q <+: segsOf img
      · obtain ⟨u', hu', hbr⟩ := findNode_insert_prefix img (segsOf img) q root [] hq1 hqp
        rw [hfind] at hu'
        have huu : u' = u := Option.some_injective _ hu'.symm
        subst huu
        rcases hbr with ⟨u₀, h₀, hk, hd⟩ | ⟨hk, hd⟩
        · obtain ⟨hmem, hq⟩ := I2 q u₀ h₀ o (by rw [← hd]; exact hdata)
          exact ⟨List.mem_append_left _ hmem, hq⟩
        · rw [hd] at hdata
          exact absurd hdata (by simp)
      · by_cases hq2 : segsOf img <+: q
        · obtain ⟨ex, hex⟩ := hq2
          have hexne : ex ≠ [] := by
            intro h
            rw [h, List.append_nil] at hex
            exact hqp hex.symm
          rw [← hex, findNode_insert_beyond img _ ex root [] hne hexne] at hfind
          exact absurd hfind (by simp)
        · rw [findNode_insert_diverge img _ q root [] hq1 hq2] at hfind
          obtain ⟨hmem, hq⟩ := I2 q u hfind o hdata
          exact ⟨List.mem_append_left _ hmem, hq⟩
  · intro q u hfind hkind
    by_cases hqp : q = segsOf img
    · exact ⟨img, List.mem_append_right _ (by simp), hqp⟩
    · by_cases hq1 : q <+: segsOf img
      · obtain ⟨u', hu', hbr⟩ := findNode_insert_prefix img (segsOf img) q root [] hq1 hqp
        rw [hfind] at hu'
        have huu : u' = u := Option.some_injective _ hu'.symm
        subst huu
        rcases hbr with ⟨u₀, h₀, hk, hd⟩ | ⟨hk, hd⟩
        · obtain ⟨o, ho, hq⟩ := I3 q u₀ h₀ (by rw [← hk]; exact hkind)
          exact ⟨o, List.mem_append_left _ ho, hq⟩
        · rw [hkind] at hk
          exact absurd hk (by simp)
      · by_cases hq2 : segsOf img <+: q
        · obtain ⟨ex, hex⟩ := hq2
          have hexne : ex ≠ [] := by
            intro h
            rw [h, List.append_nil] at hex
            exact hqp hex.symm
          rw [← hex, findNode_insert_beyond img _ ex root [] hne hexne] at hfind
          exact absurd hfind (by simp)
        · rw [findNode_insert_diverge img _ q root [] hq1 hq2] at hfind
          obtain ⟨o, ho, hq⟩ := I3 q u hfind hkind
          exact ⟨o, List.mem_append_left _ ho, hq⟩
  · intro o ho i hi hilen
    rcases List.mem_append.mp ho with ho | ho
    · have hcc := hcomp o ho
      have hq2 : ¬(segsOf img <+: (segsOf o).take i) :=
        fun h => hcc.2 (h.trans (List.take_prefix i (segsOf o)))
      by_cases hq1 : (segsOf o).take i <+: segsOf img
      · have hqp : (segsOf o).take i ≠ segsOf img := by
          intro h
          exact hq2 (by rw [h])
        obtain ⟨u', hu', hbr⟩ :=
          findNode_insert_prefix img (segsOf img) _ root [] hq1 hqp
        obtain ⟨u, hu, hk⟩ := I4 o ho i hi hilen
        refine ⟨u', hu', ?_⟩
        rcases hbr with ⟨u₀, h₀, hk', hd⟩ | ⟨hk', hd⟩
        · rw [hu] at h₀
          have : u₀ = u := Option.some_injective _ h₀.symm
          subst this
          rw [hk', hk]
        · exact hk'
      · rw [findNode_insert_diverge img _ _ root [] hq1 hq2]
        exact I4 o ho i hi hilen
    · have ho' : o = img := by simpa using ho
      subst ho'
      have hq1 : (segsOf o).take i <+: segsOf o := List.take_prefix i _
      have hqp : (segsOf o).take i ≠ segsOf o := by
        intro h
        have hlen := congrArg List.length h
        simp at hlen
        omega
      obtain ⟨u', hu', hbr⟩ := findNode_insert_prefix o (segsOf o) _ root [] hq1 hqp
      refine ⟨u', hu', ?_⟩
      rcases hbr with ⟨u₀, h₀, hk', hd⟩ | ⟨hk', hd⟩
      · cases hk0 : u₀.kind with
        | folder => rw [hk', hk0]
        | file =>
            obtain ⟨o', ho', hqo⟩ := I3 _ u₀ h₀ hk0
            have : segsOf o' <+: segsOf o := hqo ▸ hq1
            exact absurd this (hcomp o' ho').1
      · exact hk'


theorem treeInv_foldl :
    ∀ (todo done : List COCOImage) (root : TreeNode),
      TreeInv root done →
      (∀ a ∈ done, ∀ b ∈ todo, Compat a b) →
      todo.Pairwise Compat →
      TreeInv
        (todo.foldl (fun r i => insertParts r (splitSeps i.file_name) [] i) root)
        (done ++ todo) := by
  intro todo
  induction todo with
  | nil => intro done root hInv _ _; simpa using hInv
  | cons img rest ih =>
      intro done root hInv hcd hpw
      rw [List.foldl_cons]
      have step : TreeInv (insertParts root (splitSeps img.file_name) [] img)
          (done ++ [img]) :=
        treeInv_insert root done img hInv (fun a ha => hcd a ha img (by simp))
      have hcd2 : ∀ a ∈ done ++ [img], ∀ b ∈ rest, Compat a b := by
        intro a ha b hb
        rcases List.mem_append.mp ha with ha | ha
        · exact hcd a ha b (by simp [hb])
        · have ha' : a = img := by simpa using ha
          subst ha'
          exact (List.pairwise_cons.mp hpw).1 b hb
      have hres := ih (done ++ [img]) _ step hcd2 (List.pairwise_cons.mp hpw).2
      simpa [List.append_assoc] using hres

theorem treeInv_build (images : List COCOImage) (hpw : images.Pairwise Compat) :
    TreeInv (buildFileTree images) images := by
  have base :
      TreeInv (TreeNode.mk "root".toList .folder (some []) none []) [] := by
    refine ⟨by simp, ?_, ?_, by simp⟩
    · intro q u hf o hd
      cases q with
      | nil =>
          rw [findNode_nil] at hf
          have hu : u = TreeNode.mk "root".toList .folder (some []) none [] :=
            (Option.some_injective _ hf).symm
          rw [hu] at hd
          exact absurd hd (by simp [TreeNode.data])
      | cons k rest =>
          rw [findNode_fresh] at hf
          exact absurd hf (by simp)
    · intro q u hf hk
      cases q with
      | nil =>
          rw [findNode_nil] at hf
          have hu : u = TreeNode.mk "root".toList .folder (some []) none [] :=
            (Option.some_injective _ hf).symm
          rw [hu] at hk
          exact absurd hk (by simp [TreeNode.kind])
      | cons k rest =>
          rw [findNode_fresh] at hf
          exact absurd hf (by simp)
  have hres := treeInv_foldl images [] _ base (by simp) hpw
  simpa [buildFileTree] using hres

/-- C10: for a list of images whose segment sequences are pairwise
non-prefix (hence pairwise distinct), `buildFileTree` produces a tree in
which (a) each image sits in the file node `fileNodeFor img` found exactly at
its segment path (name = last segment, kind = file, no children, path =
segments joined with '/'), (b) no other node carries that image's data,
(c) every proper non-empty segment prefix leads to a folder node, and
(d) every file node of the tree has no children object. -/
theorem c10_tree_shape (images : List COCOImage)
    (hpw : images.Pairwise
      (fun a b => ¬(segsOf a <+: segsOf b) ∧ ¬(segsOf b <+: segsOf a))) :
    (∀ img ∈ images,
        findNode (buildFileTree images) (segsOf img) = some (fileNodeFor img)) ∧
    (∀ img ∈ images, ∀ q u, findNode (buildFileTree images) q = some u →
        u.data = some img → q = segsOf img) ∧
    (∀ img ∈ images, ∀ i, 0 < i → i < (segsOf img).length →
        ∃ u, findNode (buildFileTree images) ((segsOf img).take i) = some u ∧
          u.kind = NodeKind.folder) ∧
    (∀ q u, findNode (buildFileTree images) q = some u → u.kind = NodeKind.file →
        u.children = none) := by
  obtain ⟨I1, I2, I3, I4⟩ := treeInv_build images hpw
  refine ⟨I1, ?_, ?_, ?_⟩
  · intro img hmem q u hf hd
    exact (I2 q u hf img hd).2
  · intro img hmem i hi hilen
    exact I4 img hmem i hi hilen
  · intro q u hf hk
    obtain ⟨o, ho, hq⟩ := I3 q u hf hk
    subst hq
    have := I1 o ho
    rw [hf] at this
    have hu : u = fileNodeFor o := Option.some_injective _ this
    rw [hu]
    rfl

/-- Witness for C10 on a concrete three-image list. -/
theorem c10_tree_shape_witness :
    findNode
        (buildFileTree
          [⟨1, "A/x.png".toList⟩, ⟨2, "A/y.png".toList⟩, ⟨3, "B/z.png".toList⟩])
        (segsOf ⟨1, "A/x.png".toList⟩) =
      some (fileNodeFor ⟨1, "A/x.png".toList⟩) :=
  (c10_tree_shape
      [⟨1, "A/x.png".toList⟩, ⟨2, "A/y.png".toList⟩, ⟨3, "B/z.png".toList⟩]
      (by decide)).1
    ⟨1, "A/x.png".toList⟩ (by decide)


end MedSeg
